import Mathlib

/-! # ELF dissector: dependency tree model, node visitor and `depcheck` driver

A shallow embedding of

* `src/cli/depcheck.cpp` (`main`),
* `src/model/elfnodevisitor.h` (`ElfNodeVisitor::visit`) over the tag set of
  `src/ui/model/elfnodevariant.h`,
* `src/ui/dependencymodel/dependencymodel.cpp` (`DependencyModel`),

followed by the properties proved about them.

Conventions.  `QByteArray` and `QString` values are `String`s.  Machine
integers are `Nat`/`Int` with explicit reductions modulo `2^32`.  A `QVector`
is a `List`; Qt 5 keeps the size of a vector in an `int`, so an append to a
vector that already holds `QVectorMax` elements does not return
(`Fault.badAlloc`).  A failed `assert` is `Fault.assertion`, a container access
outside its bounds is `Fault.outOfRange`, and a loop that exhausts the fuel of
its model is `Fault.diverged`.
-/

namespace ElfDissector

/-! ## Results of partial operations -/

/-- The ways in which a call can fail to return. -/
inductive Fault where
  | assertion
  | outOfRange
  | badAlloc
  | diverged
deriving DecidableEq, Repr

/-- Largest number of elements of a Qt 5 `QVector` (`INT_MAX`). -/
def QVectorMax : Nat := 2147483647

/-- Qt's `QVector<T>::push_back`.  The size of a Qt 5 vector is an `int`, so no
vector holds more than `QVectorMax` elements: the model lets a vector grow up
to that bound, and an append to a vector that has reached it ends in an
allocation failure instead of returning. -/
def pushBack {α : Type} (v : List α) (x : α) : Except Fault (List α) :=
  if v.length < QVectorMax then .ok (v ++ [x]) else .error .badAlloc

/-- Qt's `QVector<T>::at`, which requires the position to be in range. -/
def vecAt {α : Type} (v : List α) (i : Nat) : Except Fault α :=
  match v[i]? with
  | some x => .ok x
  | none => .error .outOfRange

/-- Qt's `QVector<T>::indexOf`: the first position holding `x`, or `-1`. -/
def indexOf (v : List Nat) (x : Nat) : Int :=
  match v with
  | [] => -1
  | y :: ys =>
    if y = x then 0
    else
      let r := indexOf ys x
      if r < 0 then -1 else r + 1

/-- The `assert` of `<cassert>`. -/
def assert (b : Bool) : Except Fault Unit :=
  if b then .ok () else .error .assertion

/-- Conversion of a size to `uint32_t`. -/
def toUInt32 (n : Nat) : Nat := n % 2 ^ 32

/-- Conversion of a 32-bit pattern to `int32_t`. -/
def toInt32 (n : Nat) : Int :=
  if n % 2 ^ 32 < 2 ^ 31 then ((n % 2 ^ 32 : Nat) : Int) else ((n % 2 ^ 32 : Nat) : Int) - 2 ^ 32

/-! ## ELF files and file sets -/

/-- The part of an `ElfFile` the code under study reads: its display name and,
from its dynamic section, the `SONAME` and the `DT_NEEDED` list. -/
structure ElfFile where
  displayName : String
  soName : String
  neededLibraries : List String
deriving DecidableEq, Repr

/-- An `ElfFileSet` object: `m_files`, a `QVector`, hence of bounded size. -/
structure ElfFileSet where
  m_files : List ElfFile
  m_files_size : m_files.length ≤ QVectorMax

namespace ElfFileSet

/-- A freshly constructed `ElfFileSet`. -/
def empty : ElfFileSet := ⟨[], Nat.zero_le _⟩

/-- Method `ElfFileSet::size`. -/
def size (set : ElfFileSet) : Nat := set.m_files.length

/-- Method `ElfFileSet::file(int index)`: `m_files.at(index)`. -/
def file (set : ElfFileSet) (index : Int) : Except Fault ElfFile :=
  if index < 0 then .error .outOfRange else vecAt set.m_files index.toNat

end ElfFileSet

/-! ## `depcheck` -/

namespace Depcheck

/-- The collaborators of `main` whose code is outside `src/`: what
`ElfFileSet::addFile` makes of a set for a file name (the file system is not
changed by the run), and `DependenciesCheck::unusedDependencies`. -/
structure Env (U : Type) where
  addFile : ElfFileSet → String → ElfFileSet
  unusedDependencies : ElfFileSet → U

/-- The calls into `DependenciesCheck` that `main` makes. -/
inductive Call (U : Type) where
  | unusedDependencies (set : List ElfFile)
  | printUnusedDependencies (set : List ElfFile) (unusedDeps : U)
deriving DecidableEq

/-- The loop over `parser.positionalArguments()` in `main`. -/
def mainLoop {U : Type} (env : Env U) : List String → List (Call U)
  | [] => []
  | fileName :: rest =>
    let set := env.addFile ElfFileSet.empty fileName
    if set.size = 0 then
      mainLoop env rest
    else
      let unusedDeps := env.unusedDependencies set
      Call.unusedDependencies set.m_files
        :: Call.printUnusedDependencies set.m_files unusedDeps
        :: mainLoop env rest

/-- The function `main` of `depcheck.cpp` on the positional arguments: the calls made and
the exit code. -/
def main {U : Type} (env : Env U) (positionalArguments : List String) : List (Call U) × Int :=
  (mainLoop env positionalArguments, 0)

/-- A file system on which no path can be loaded. -/
def noFiles : Env Unit := ⟨fun set _ => set, fun _ => ()⟩

end Depcheck

/-! ## `ElfNodeVisitor` -/

namespace ElfNodeVisitor

end ElfNodeVisitor

/-! ## `QModelIndex` -/

/-- A `QModelIndex`: row, column, internal id and whether the model pointer is
set.  The default value is the invalid index `QModelIndex()`. -/
structure QModelIndex where
  row : Int := -1
  column : Int := -1
  internalId : Nat := 0
  model : Bool := false
deriving DecidableEq, Repr

namespace QModelIndex

/-- Qt's `QModelIndex::isValid`. -/
def isValid (index : QModelIndex) : Bool :=
  decide (0 ≤ index.row) && decide (0 ≤ index.column) && index.model

end QModelIndex

/-- Qt's `QAbstractItemModel::createIndex(row, column, id)`. -/
def createIndex (row column : Int) (id : Nat) : QModelIndex :=
  { row := row, column := column, internalId := id, model := true }

/-! ## `DependencyModel` -/

/-- A pointer to an `ElfFileSet` object: the address of the object and the
object found there, which is not changed while a model holds the pointer.  The
null pointer is `none`. -/
structure FileSetRef where
  addr : Nat
  set : ElfFileSet

/-- Qt's `QHash<QByteArray, int>::insert`: an existing entry for the key is replaced. -/
def qhashInsert (h : List (String × Int)) (key : String) (value : Int) : List (String × Int) :=
  (key, value) :: h.filter (fun e => e.1 != key)

/-- Qt's `QHash<QByteArray, int>::constFind`, `none` standing for `cend()`. -/
def qhashFind (h : List (String × Int)) (key : String) : Option Int :=
  h.lookup key

/-- The member variables of a `DependencyModel`. -/
structure DependencyModel where
  m_fileSet : Option FileSetRef
  m_fileIndex : List (String × Int)
  m_childMap : List (List Nat)
  m_parentMap : List Nat
  m_uniqueIndex : Nat

namespace DependencyModel

/-- The constant `DependencyModel::InvalidFile`. -/
def InvalidFile : Int := -1

/-- Method `DependencyModel::makeId(uint32_t id, int32_t fileIndex)`. -/
def makeId (id : Nat) (fileIndex : Int) : Nat :=
  let f : Nat := (fileIndex % 2 ^ 32).toNat
  id ||| f <<< 32

/-- Method `DependencyModel::fileIndex(uint64_t qmiId)`. -/
def fileIndex (qmiId : Nat) : Int :=
  toInt32 (qmiId >>> 32)

/-- Method `DependencyModel::nodeId(uint64_t qmiId)`. -/
def nodeId (qmiId : Nat) : Nat :=
  qmiId % 2 ^ 32

/-- Method `DependencyModel::fileIndex(const QByteArray &needed)`. -/
def fileIndexByName (s : DependencyModel) (needed : String) : Int :=
  match qhashFind s.m_fileIndex needed with
  | some value => value
  | none => InvalidFile

/-- The loop of `setFileSet` that fills `m_fileIndex`; `i` is the loop counter and
`files` what is left of the set from position `i` on. -/
def buildFileIndex (files : List ElfFile) (i : Nat) (h : List (String × Int)) :
    List (String × Int) :=
  match files with
  | [] => h
  | file :: rest =>
    let soName := file.soName
    if soName ≠ "" then buildFileIndex rest (i + 1) (qhashInsert h soName i)
    else buildFileIndex rest (i + 1) h

/-- Method `DependencyModel::setFileSet`. -/
def setFileSet (s : DependencyModel) (fileSet : Option FileSetRef) :
    Except Fault DependencyModel :=
  if s.m_fileSet.map (fun p => p.addr) = fileSet.map (fun p => p.addr) then .ok s
  else
    let s1 : DependencyModel :=
      { m_fileSet := fileSet, m_fileIndex := [], m_childMap := [], m_parentMap := [],
        m_uniqueIndex := 0 }
    match fileSet with
    | none => .ok s1
    | some fs =>
      if fs.set.size = 0 then .ok s1
      else do
        let fileIndex := buildFileIndex fs.set.m_files 0 s1.m_fileIndex
        -- setup root
        let parentMap : List Nat := [0]
        let childMap : List (List Nat) := [[]]
        -- fill the first level
        let uniqueIndex := (s1.m_uniqueIndex + 1) % 2 ^ 32
        assert (toUInt32 parentMap.length == uniqueIndex)
        assert (toUInt32 childMap.length == uniqueIndex)
        let parentMap ← pushBack parentMap 0
        let children ← vecAt childMap 0
        let children ← pushBack children (makeId uniqueIndex 0)
        let childMap ← pushBack (childMap.set 0 children) []
        return { m_fileSet := fileSet, m_fileIndex := fileIndex, m_childMap := childMap,
                 m_parentMap := parentMap, m_uniqueIndex := uniqueIndex }

/-- Method `DependencyModel::columnCount`. -/
def columnCount (_parent : QModelIndex) : Int := 1

/-- Method `DependencyModel::parent`. -/
def parent (s : DependencyModel) (child : QModelIndex) : Except Fault QModelIndex :=
  if s.m_fileSet.isNone || !child.isValid then .ok {}
  else do
    let node := nodeId child.internalId
    assert (decide (toUInt32 s.m_parentMap.length > node))
    let parentId ← vecAt s.m_parentMap node
    let parentNode := nodeId parentId
    if parentNode = 0 then .ok {}
    else do
      assert (decide (toUInt32 s.m_parentMap.length > parentNode))
      let grandParentNode := nodeId (← vecAt s.m_parentMap parentNode)
      assert (decide (toUInt32 s.m_childMap.length > grandParentNode))
      let children ← vecAt s.m_childMap grandParentNode
      let row := indexOf children parentId
      assert (decide (row ≥ 0))
      return createIndex row 0 parentId

/-- The loop of `DependencyModel::hasCycle`, run for at most `fuel` rounds. -/
def hasCycleLoop (s : DependencyModel) (file : Int) :
    Nat → QModelIndex → Except Fault Bool
  | 0, _ => .error .diverged
  | fuel + 1, parentIndex => do
    let parentIndex ← parent s parentIndex
    if !parentIndex.isValid then .ok false
    else
      let parentFile := fileIndex parentIndex.internalId
      if parentFile = file then .ok true
      else hasCycleLoop s file fuel parentIndex

/-- Method `DependencyModel::hasCycle`.  The loop is given one round per entry of
`m_parentMap` and one more. -/
def hasCycle (s : DependencyModel) (index : QModelIndex) : Except Fault Bool :=
  let file := fileIndex index.internalId
  hasCycleLoop s file (s.m_parentMap.length + 1) index

/-- The loop over `needed` in `DependencyModel::rowCount`. -/
def rowCountLoop (s : DependencyModel) (node : Nat) (parentId : Nat) :
    List String → Except Fault DependencyModel
  | [] => .ok s
  | need :: rest => do
    let uniqueIndex := (s.m_uniqueIndex + 1) % 2 ^ 32
    let childNode := makeId uniqueIndex (fileIndexByName s need)
    let parentMap ← pushBack s.m_parentMap parentId
    let childMap ← pushBack s.m_childMap []
    let children ← vecAt childMap node
    let children ← pushBack children childNode
    let childMap := childMap.set node children
    assert (toUInt32 parentMap.length == (uniqueIndex + 1) % 2 ^ 32)
    assert (toUInt32 childMap.length == (uniqueIndex + 1) % 2 ^ 32)
    rowCountLoop
      { s with m_uniqueIndex := uniqueIndex, m_parentMap := parentMap, m_childMap := childMap }
      node parentId rest

/-- Method `DependencyModel::rowCount`, with the state it leaves behind (the maps are
`mutable`). -/
def rowCount (s : DependencyModel) (parent : QModelIndex) :
    Except Fault (Nat × DependencyModel) :=
  match s.m_fileSet with
  | none => .ok (0, s)
  | some fileSet => do
    let node := nodeId parent.internalId
    assert (decide (node < toUInt32 s.m_childMap.length))
    let children ← vecAt s.m_childMap node
    if children ≠ [] then .ok (children.length, s)
    else
      let file := fileIndex parent.internalId
      if file = InvalidFile then .ok (0, s)
      else do
        if ← hasCycle s parent then .ok (0, s)
        else do
          let needed := (← fileSet.set.file file).neededLibraries
          if needed = [] then .ok (0, s)
          else do
            let s' ← rowCountLoop s node parent.internalId needed
            return ((← vecAt s'.m_childMap node).length, s')

/-- Qt's `QAbstractItemModel::hasIndex`, which asks `rowCount` and `columnCount`. -/
def hasIndex (s : DependencyModel) (row column : Int) (parent : QModelIndex) :
    Except Fault (Bool × DependencyModel) :=
  if row < 0 ∨ column < 0 then .ok (false, s)
  else do
    let (n, s') ← rowCount s parent
    return (decide (row < (n : Int)) && decide (column < columnCount parent), s')

/-- Method `DependencyModel::index`, with the state it leaves behind. -/
def index (s : DependencyModel) (row column : Int) (parent : QModelIndex) :
    Except Fault (QModelIndex × DependencyModel) :=
  if s.m_fileSet.isNone then .ok ({}, s)
  else do
    let (has, s') ← hasIndex s row column parent
    if !has then .ok ({}, s')
    else do
      let node := nodeId parent.internalId
      assert (decide (node < toUInt32 s'.m_childMap.length))
      let children ← vecAt s'.m_childMap node
      if row ≥ (children.length : Int) then .ok ({}, s')
      else do
        assert (decide (row < (children.length : Int)))
        return (createIndex row column (← vecAt children row.toNat), s')

/-- Method `DependencyModel::data` for `Qt::DisplayRole`; `none` is the null `QVariant`. -/
def dataDisplayRole (s : DependencyModel) (index : QModelIndex) :
    Except Fault (Option String) :=
  match s.m_fileSet with
  | none => .ok none
  | some fileSet =>
    if !index.isValid then .ok none
    else do
      let file := fileIndex index.internalId
      if file ≠ InvalidFile then
        return some (← fileSet.set.file file).displayName
      else do
        let parentIdx ← parent s index
        let parentFile := fileIndex parentIdx.internalId
        let needed := (← fileSet.set.file parentFile).neededLibraries
        if index.row < 0 then .error .outOfRange
        else return some (← vecAt needed index.row.toNat)

end DependencyModel

end ElfDissector

/-! ## Vocabulary for the tree held in the maps -/

namespace ElfDissector

namespace DependencyModel

/-- The child list `m_childMap` holds for a node; empty when it holds none. -/
def childrenOf (s : DependencyModel) (node : Nat) : List Nat :=
  s.m_childMap.getD node []

/-- The file index is `InvalidFile` or a position of the file set. -/
def ValidFile (fs : FileSetRef) (file : Int) : Prop :=
  file = InvalidFile ∨ (0 ≤ file ∧ file < (fs.set.size : Int))

/-- The index `x` is what `index()` returns for some row of some child list:
`createIndex(row, 0, children.at(row))`. -/
def Produced (s : DependencyModel) (x : QModelIndex) : Prop :=
  ∃ node row : Nat, (childrenOf s node)[row]? = some x.internalId
    ∧ x = createIndex (row : Int) 0 x.internalId

/-- The ids found by following `m_parentMap` upwards from the node with id `id`, up to
and without the root, nearest first; `fuel` bounds the number of steps. -/
def chain (s : DependencyModel) : Nat → Nat → List Nat
  | 0, _ => []
  | fuel + 1, id =>
    match s.m_parentMap[nodeId id]? with
    | none => []
    | some pid => if nodeId pid = 0 then [] else pid :: chain s fuel pid

/-- The valid indices met by calling `parent()` again and again from `x`, nearest
first, for at most `fuel` calls. -/
def ancestorsLoop (s : DependencyModel) : Nat → QModelIndex → Except Fault (List QModelIndex)
  | 0, _ => .error .diverged
  | fuel + 1, x => do
    let p ← parent s x
    if !p.isValid then .ok []
    else do
      let rest ← ancestorsLoop s fuel p
      return p :: rest

/-- The strict ancestors of an index, as `parent()` reports them. -/
def ancestors (s : DependencyModel) (x : QModelIndex) : Except Fault (List QModelIndex) :=
  ancestorsLoop s (s.m_parentMap.length + 1) x

/-- The ids `rowCount` gives to the children it creates when the counter stands at
`u`, for the file indices of the needed libraries. -/
def newIds (u : Nat) : List Int → List Nat
  | [] => []
  | f :: rest => makeId (u + 1) f :: newIds (u + 1) rest

/-- The state `setFileSet` leaves for a non-empty file set: the root and one top-level
node for the first file. -/
def rooted (fs : FileSetRef) : DependencyModel :=
  { m_fileSet := some fs, m_fileIndex := buildFileIndex fs.set.m_files 0 [],
    m_childMap := [[makeId 1 0], []], m_parentMap := [0, 0], m_uniqueIndex := 1 }

/-- The state one round of the loop of `rowCount` leaves: the counter advanced, the
parent recorded, `childNode` appended to the child list of `node`, and an empty
child list added for the new node. -/
def pushChild (s : DependencyModel) (node parentId childNode : Nat) : DependencyModel :=
  { s with
    m_uniqueIndex := s.m_uniqueIndex + 1
    m_parentMap := s.m_parentMap ++ [parentId]
    m_childMap := s.m_childMap.set node (childrenOf s node ++ [childNode]) ++ [[]] }

/-- The state the loop of `rowCount` leaves when it appends the children `ids` to the
child list of `node`. -/
def expand (s : DependencyModel) (node parentId : Nat) (ids : List Nat) : DependencyModel :=
  { s with
    m_uniqueIndex := s.m_uniqueIndex + ids.length
    m_parentMap := s.m_parentMap ++ List.replicate ids.length parentId
    m_childMap :=
      s.m_childMap.set node (childrenOf s node ++ ids) ++ List.replicate ids.length [] }

/-- The states and the indices in the hands of the caller after `setFileSet` has
installed the non-empty file set `fs` in a model that held another pointer,
followed by any number of `setFileSet` calls with the same pointer and of
`rowCount`, `index` and `parent` calls for the root index or for indices the
model returned before. -/
inductive Reach (fs : FileSetRef) : DependencyModel → List QModelIndex → Prop
  | setFileSet {s0 s : DependencyModel} :
      s0.m_fileSet.map (fun p => p.addr) ≠ some fs.addr → fs.set.size ≠ 0 →
      DependencyModel.setFileSet s0 (some fs) = .ok s → Reach fs s []
  | setFileSetAgain {s s' : DependencyModel} {held : List QModelIndex} :
      Reach fs s held → DependencyModel.setFileSet s (some fs) = .ok s' → Reach fs s' held
  | rowCount {s s' : DependencyModel} {held : List QModelIndex} {p : QModelIndex} {n : Nat} :
      Reach fs s held → (p = {} ∨ p ∈ held) →
      DependencyModel.rowCount s p = .ok (n, s') → Reach fs s' held
  | index {s s' : DependencyModel} {held : List QModelIndex} {p x : QModelIndex}
      {row column : Int} :
      Reach fs s held → (p = {} ∨ p ∈ held) →
      DependencyModel.index s row column p = .ok (x, s') → Reach fs s' (x :: held)
  | parent {s : DependencyModel} {held : List QModelIndex} {c x : QModelIndex} :
      Reach fs s held → c ∈ held →
      DependencyModel.parent s c = .ok x → Reach fs s (x :: held)

/-- The shape of the maps in every state reached with the file set `fs` installed. -/
structure Inv (fs : FileSetRef) (s : DependencyModel) : Prop where
  fileSet : s.m_fileSet = some fs
  nonempty : fs.set.size ≠ 0
  fileIndex_eq : s.m_fileIndex = buildFileIndex fs.set.m_files 0 []
  parentMap_length : s.m_parentMap.length = s.m_uniqueIndex + 1
  childMap_length : s.m_childMap.length = s.m_uniqueIndex + 1
  bound : s.m_uniqueIndex + 1 ≤ QVectorMax
  root_parent : s.m_parentMap[0]? = some 0
  root_children : childrenOf s 0 = [makeId 1 0]
  child : ∀ q r id : Nat, (childrenOf s q)[r]? = some id →
    q < nodeId id ∧ nodeId id ≤ s.m_uniqueIndex ∧ ValidFile fs (fileIndex id)
    ∧ ∃ pid, s.m_parentMap[nodeId id]? = some pid ∧ nodeId pid = q
        ∧ (pid = 0 ∨ ∃ q' r' : Nat, (childrenOf s q')[r']? = some pid)
  distinct : ∀ q r r' id id' : Nat, (childrenOf s q)[r]? = some id →
    (childrenOf s q)[r']? = some id' → nodeId id = nodeId id' → r = r'
  covered : ∀ j, 1 ≤ j → j ≤ s.m_uniqueIndex →
    ∃ q r id : Nat, (childrenOf s q)[r]? = some id ∧ nodeId id = j
  expanded : ∀ q0 r0 pid : Nat, (childrenOf s q0)[r0]? = some pid →
    childrenOf s (nodeId pid) ≠ [] →
    ∃ fl, fs.set.file (fileIndex pid) = .ok fl
      ∧ (childrenOf s (nodeId pid)).map fileIndex
          = fl.neededLibraries.map (fileIndexByName s)
      ∧ fileIndex pid ∉ (chain s (nodeId pid) pid).map fileIndex

end DependencyModel

end ElfDissector

/-! ## Concrete inputs used as examples -/

namespace ElfDissector

namespace Examples

/-- A freshly constructed model: no file set, empty maps. -/
def freshModel : DependencyModel :=
  { m_fileSet := none, m_fileIndex := [], m_childMap := [], m_parentMap := [], m_uniqueIndex := 0 }

/-- A file set object without files. -/
def emptySet : FileSetRef := ⟨1, ElfFileSet.empty⟩

/-- The state of a model after `setFileSet(&emptySet)`. -/
def emptySetModel : DependencyModel :=
  { m_fileSet := some emptySet, m_fileIndex := [], m_childMap := [], m_parentMap := [],
    m_uniqueIndex := 0 }

/-- Two files that carry the same `SONAME`. -/
def twinSet : FileSetRef :=
  ⟨2, ⟨[⟨"/usr/lib/libtwin.so.1", "libtwin.so", []⟩,
        ⟨"/opt/lib/libtwin.so.1", "libtwin.so", []⟩], by decide⟩⟩

/-- The state of a model after `setFileSet(&twinSet)`. -/
def twinModel : DependencyModel :=
  { m_fileSet := some twinSet, m_fileIndex := [("libtwin.so", 1)],
    m_childMap := [[DependencyModel.makeId 1 0], []], m_parentMap := [0, 0],
    m_uniqueIndex := 1 }

/-- An executable that needs `libx.so` and a library no file provides, and two
libraries that need each other. -/
def cyclicSet : FileSetRef :=
  ⟨3, ⟨[⟨"a.out", "", ["libx.so", "libghost.so"]⟩,
        ⟨"/usr/lib/libx.so", "libx.so", ["liby.so"]⟩,
        ⟨"/usr/lib/liby.so", "liby.so", ["libx.so"]⟩], by decide⟩⟩

/-- The index of the top-level node, `index(0, 0, QModelIndex())`. -/
def topIndex : QModelIndex := createIndex 0 0 (DependencyModel.makeId 1 0)

/-- The index of `libx.so` below the top-level node. -/
def libxIndex : QModelIndex := createIndex 0 0 (DependencyModel.makeId 2 1)

/-- The index of the missing `libghost.so` below the top-level node. -/
def libghostIndex : QModelIndex := createIndex 1 0 (DependencyModel.makeId 3 (-1))

/-- The index of `liby.so` below `libx.so`. -/
def libyIndex : QModelIndex := createIndex 0 0 (DependencyModel.makeId 4 2)

/-- The index of `libx.so` below `liby.so`, where the cycle closes. -/
def libxAgainIndex : QModelIndex := createIndex 0 0 (DependencyModel.makeId 5 1)

/-- The model of `cyclicSet` once the children of the top-level node exist. -/
def grownOnce : DependencyModel :=
  DependencyModel.expand (DependencyModel.rooted cyclicSet) 1 (DependencyModel.makeId 1 0)
    [DependencyModel.makeId 2 1, DependencyModel.makeId 3 (-1)]

/-- The model of `cyclicSet` once the children of `libx.so` exist as well. -/
def grownTwice : DependencyModel :=
  DependencyModel.expand grownOnce 2 (DependencyModel.makeId 2 1) [DependencyModel.makeId 4 2]

/-- The model of `cyclicSet` once the children of `liby.so` exist as well. -/
def grownThrice : DependencyModel :=
  DependencyModel.expand grownTwice 4 (DependencyModel.makeId 4 2) [DependencyModel.makeId 5 1]

end Examples

end ElfDissector

/-! ## Properties -/

namespace ElfDissector

open DependencyModel

/-! ### `depcheck` -/

theorem Depcheck.mainLoop_append {U : Type} (env : Depcheck.Env U) (xs ys : List String) :
    Depcheck.mainLoop env (xs ++ ys) = Depcheck.mainLoop env xs ++ Depcheck.mainLoop env ys := by
  induction xs with
  | nil => rfl
  | cons x xs ih =>
    simp only [List.cons_append, Depcheck.mainLoop]
    split
    · exact ih
    · simp [ih]

/-- C1, as the code has it: `main` returns exit code 0 for every list of positional
arguments, the empty list and lists none of whose files can be loaded included. -/
theorem Depcheck.main_exit_code_zero {U : Type} (env : Depcheck.Env U) (args : List String) :
    (Depcheck.main env args).2 = 0 := rfl

/-- C1, counterexample: with no positional argument at all, and with one argument
that cannot be loaded, both invocation errors according to the claim, `main`
makes no call and still returns exit code 0. -/
theorem Depcheck.main_no_arguments_exit_code :
    Depcheck.main Depcheck.noFiles [] = ([], 0)
    ∧ (Depcheck.noFiles.addFile ElfFileSet.empty "/nonexistent").size = 0
    ∧ Depcheck.main Depcheck.noFiles ["/nonexistent"] = ([], 0) :=
  ⟨rfl, rfl, rfl⟩

/-- C2: the calls `main` makes for an argument list are the calls it makes for
each argument alone, in argument order; an argument whose fresh set stays empty
after `addFile` contributes no call, any other exactly the two calls on its own
set. -/
theorem Depcheck.main_arguments_independent {U : Type} (env : Depcheck.Env U)
    (args : List String) :
    (Depcheck.main env args).1 = args.flatMap (fun a => (Depcheck.main env [a]).1)
    ∧ ∀ a : String, (Depcheck.main env [a]).1 =
        if (env.addFile ElfFileSet.empty a).size = 0 then []
        else [Depcheck.Call.unusedDependencies (env.addFile ElfFileSet.empty a).m_files,
              Depcheck.Call.printUnusedDependencies (env.addFile ElfFileSet.empty a).m_files
                (env.unusedDependencies (env.addFile ElfFileSet.empty a))] := by
  constructor
  · induction args with
    | nil => rfl
    | cons x xs ih =>
      have h := Depcheck.mainLoop_append env [x] xs
      simp only [List.singleton_append] at h
      simp only [Depcheck.main] at ih ⊢
      rw [h, ih, List.flatMap_cons]
  · intro a
    simp only [Depcheck.main, Depcheck.mainLoop]

/-! ### `ElfNodeVisitor` -/

theorem qhashFind_filter_ne (h : List (String × Int)) (key n : String) (hn : n ≠ key) :
    qhashFind (h.filter (fun e => e.1 != key)) n = qhashFind h n := by
  induction h with
  | nil => rfl
  | cons e rest ih =>
    obtain ⟨k, v⟩ := e
    simp only [qhashFind] at ih ⊢
    by_cases hk : k = key
    · subst hk
      have hnk : (n == k) = false := by simpa using hn
      simp [List.filter_cons, List.lookup_cons, hnk, ih]
    · have hk' : (k != key) = true := by simpa using hk
      simp only [List.filter_cons, hk', if_true, List.lookup_cons, ih]

theorem qhashFind_insert (h : List (String × Int)) (key : String) (value : Int) (n : String) :
    qhashFind (qhashInsert h key value) n = if n = key then some value else qhashFind h n := by
  by_cases hn : n = key
  · subst hn
    simp [qhashFind, qhashInsert, List.lookup_cons]
  · have hnk : (n == key) = false := by simpa using hn
    have := qhashFind_filter_ne h key n hn
    simp only [qhashFind] at this
    simp [qhashFind, qhashInsert, List.lookup_cons, hnk, hn, this]

theorem DependencyModel.buildFileIndex_absent (files : List ElfFile) (i : Nat)
    (h : List (String × Int)) (n : String)
    (hn : n = "" ∨ ∀ fl ∈ files, fl.soName ≠ n) :
    qhashFind (buildFileIndex files i h) n = qhashFind h n := by
  induction files generalizing i h with
  | nil => rfl
  | cons fl rest ih =>
    have hrest : n = "" ∨ ∀ fl ∈ rest, fl.soName ≠ n := by
      rcases hn with hn | hn
      · exact Or.inl hn
      · exact Or.inr (fun fl hfl => hn fl (List.mem_cons_of_mem _ hfl))
    simp only [buildFileIndex]
    split
    · rename_i hso
      rw [ih _ _ hrest, qhashFind_insert]
      have : n ≠ fl.soName := by
        rcases hn with hn | hn
        · subst hn; exact fun e => hso e.symm
        · exact fun e => hn fl (List.mem_cons_self _ _) e.symm
      simp [this]
    · exact ih _ _ hrest

theorem DependencyModel.buildFileIndex_last (files : List ElfFile) (i : Nat)
    (h : List (String × Int)) (k : Nat) (fl : ElfFile)
    (hk : files[k]? = some fl) (hne : fl.soName ≠ "")
    (hlast : ∀ j fl', k < j → files[j]? = some fl' → fl'.soName ≠ fl.soName) :
    qhashFind (buildFileIndex files i h) fl.soName = some ((i + k : Nat) : Int) := by
  induction files generalizing i h k with
  | nil => simp at hk
  | cons f0 rest ih =>
    cases k with
    | zero =>
      simp only [List.getElem?_cons_zero, Option.some.injEq] at hk
      subst hk
      have habs : ∀ f ∈ rest, f.soName ≠ f0.soName := by
        intro f hf
        obtain ⟨j, hj⟩ := List.mem_iff_getElem?.mp hf
        exact hlast (j + 1) f (Nat.succ_pos _) (by simpa using hj)
      simp only [buildFileIndex, hne, ne_eq, not_false_eq_true, if_true]
      rw [buildFileIndex_absent _ _ _ _ (Or.inr habs), qhashFind_insert]
      simp
    | succ k =>
      simp only [List.getElem?_cons_succ] at hk
      have hlast' : ∀ j fl', k < j → rest[j]? = some fl' → fl'.soName ≠ fl.soName := by
        intro j fl' hj hfl'
        exact hlast (j + 1) fl' (by omega) (by simpa using hfl')
      have := ih (i + 1) (if f0.soName ≠ "" then qhashInsert h f0.soName i else h) k hk hlast'
      simp only [buildFileIndex]
      split
      · rename_i hso
        simp only [hso, ne_eq, not_false_eq_true, if_true] at this
        rw [this]; congr 1; omega
      · rename_i hso
        simp only [hso, if_false] at this
        rw [this]; congr 1; omega

theorem DependencyModel.setFileSet_fileIndex (s0 s : DependencyModel) (fs : FileSetRef)
    (hptr : s0.m_fileSet.map (fun p => p.addr) ≠ some fs.addr)
    (hset : setFileSet s0 (some fs) = .ok s) :
    s.m_fileIndex = if fs.set.size = 0 then [] else buildFileIndex fs.set.m_files 0 [] := by
  unfold setFileSet at hset
  simp only [Option.map_some', hptr, if_false] at hset
  split at hset
  · rename_i h0
    simp only [Except.ok.injEq] at hset
    subst hset
    simp [h0]
  · rename_i h0
    simp only [h0, if_false]
    have : s = { m_fileSet := some fs, m_fileIndex := buildFileIndex fs.set.m_files 0 [],
                 m_childMap := [[makeId 1 0], []], m_parentMap := [0, 0],
                 m_uniqueIndex := 1 } := by
      have e : (Except.ok s : Except Fault DependencyModel) = Except.ok _ := hset.symm.trans rfl
      exact Except.ok.inj e
    rw [this]

/-- C3, as the code has it: in the index `setFileSet` builds, a non-empty `SONAME`
carried by several files of the set looks up to the last of them (the largest
position `i` with `file(i).soName == n`); the empty name and a name that is no
file's `SONAME` look up to `InvalidFile`. -/
theorem DependencyModel.fileIndex_last_wins (s0 s : DependencyModel) (fs : FileSetRef)
    (hptr : s0.m_fileSet.map (fun p => p.addr) ≠ some fs.addr)
    (hset : setFileSet s0 (some fs) = .ok s) :
    (∀ (i : Nat) (fl : ElfFile), fs.set.m_files[i]? = some fl → fl.soName ≠ "" →
        (∀ j fl', i < j → fs.set.m_files[j]? = some fl' → fl'.soName ≠ fl.soName) →
        fileIndexByName s fl.soName = (i : Int))
    ∧ fileIndexByName s "" = InvalidFile
    ∧ ∀ n : String, (∀ fl ∈ fs.set.m_files, fl.soName ≠ n) →
        fileIndexByName s n = InvalidFile := by
  have hidx := setFileSet_fileIndex s0 s fs hptr hset
  have habs : ∀ n : String, (n = "" ∨ ∀ fl ∈ fs.set.m_files, fl.soName ≠ n) →
      fileIndexByName s n = InvalidFile := by
    intro n hn
    have hnone : qhashFind s.m_fileIndex n = none := by
      rw [hidx]
      by_cases h0 : fs.set.size = 0
      · rw [if_pos h0]; rfl
      · rw [if_neg h0, buildFileIndex_absent _ _ _ _ hn]; rfl
    unfold fileIndexByName
    rw [hnone]
  refine ⟨?_, habs "" (Or.inl rfl), fun n hn => habs n (Or.inr hn)⟩
  intro i fl hi hne hlast
  have hsize : fs.set.size ≠ 0 := by
    intro h0
    have : fs.set.m_files = [] := List.length_eq_zero.mp h0
    rw [this] at hi
    simp at hi
  unfold fileIndexByName
  rw [hidx, if_neg hsize, buildFileIndex_last _ 0 [] i fl hi hne hlast]
  simp

/-- C3, witness: the index over the set of two files named `libtwin.so`. -/
theorem DependencyModel.fileIndex_last_wins_witness :
    fileIndexByName Examples.twinModel "libtwin.so" = 1
    ∧ fileIndexByName Examples.twinModel "" = InvalidFile
    ∧ fileIndexByName Examples.twinModel "libc.so.6" = InvalidFile :=
  have h := DependencyModel.fileIndex_last_wins Examples.freshModel Examples.twinModel
    Examples.twinSet (by decide) rfl
  ⟨h.1 1 ⟨"/opt/lib/libtwin.so.1", "libtwin.so", []⟩ rfl (by decide)
      (fun j fl' hj hfl' => by
        have : Examples.twinSet.set.m_files[j]? = none :=
          List.getElem?_eq_none (by simp [Examples.twinSet]; omega)
        rw [this] at hfl'; cases hfl'),
   h.2.1,
   h.2.2 "libc.so.6" (by decide)⟩

/-- C3, counterexample: both files of the set carry the `SONAME` `libtwin.so`; the
smallest position with that name is 0, and the index built by `setFileSet` looks
the name up to position 1. -/
theorem DependencyModel.fileIndex_first_does_not_win :
    setFileSet Examples.freshModel (some Examples.twinSet) = .ok Examples.twinModel
    ∧ (Examples.twinSet.set.m_files[0]?).map (fun fl => fl.soName) = some "libtwin.so"
    ∧ fileIndexByName Examples.twinModel "libtwin.so" = 1 := by
  refine ⟨rfl, rfl, rfl⟩

/-! ### `DependencyModel`: the empty file set -/

/-- C9, the defect: `setFileSet` accepts a file set without files and installs it, leaving
`m_childMap` empty; the next `rowCount` or `index` call for the root index fails
`assert(node < m_childMap.size())`. -/
theorem DependencyModel.rowCount_empty_set_assertion :
    setFileSet Examples.freshModel (some Examples.emptySet) = .ok Examples.emptySetModel
    ∧ Examples.emptySetModel.m_fileSet.isSome = true
    ∧ rowCount Examples.emptySetModel {} = .error .assertion
    ∧ index Examples.emptySetModel 0 0 {} = .error .assertion := by
  refine ⟨rfl, rfl, rfl, rfl⟩

end ElfDissector

/-! ### Auxiliary facts on the primitives -/

namespace ElfDissector

open DependencyModel

theorem ok_bind {α β : Type} (a : α) (f : α → Except Fault β) :
    (Except.ok a >>= f) = f a := rfl

theorem error_bind {α β : Type} (e : Fault) (f : α → Except Fault β) :
    ((Except.error e : Except Fault α) >>= f) = Except.error e := rfl

theorem assert_of {b : Bool} (h : b = true) : assert b = .ok () := by
  subst h; rfl

theorem vecAt_of_getElem? {α : Type} {v : List α} {i : Nat} {x : α} (h : v[i]? = some x) :
    vecAt v i = .ok x := by
  simp [vecAt, h]

theorem pushBack_of_lt {α : Type} {v : List α} (x : α) (h : v.length < QVectorMax) :
    pushBack v x = .ok (v ++ [x]) := by
  simp [pushBack, h]

theorem pushBack_of_not_lt {α : Type} {v : List α} (x : α) (h : ¬ v.length < QVectorMax) :
    pushBack v x = .error .badAlloc := by
  simp [pushBack, h]

theorem toUInt32_of_le {n : Nat} (h : n ≤ QVectorMax) : toUInt32 n = n := by
  unfold toUInt32
  unfold QVectorMax at h
  omega

theorem indexOf_eq_of_first (v : List Nat) (x : Nat) (r : Nat) (h : v[r]? = some x)
    (hfirst : ∀ r', v[r']? = some x → r' = r) : indexOf v x = (r : Int) := by
  induction v generalizing r with
  | nil => simp at h
  | cons y ys ih =>
    unfold indexOf
    cases r with
    | zero =>
      simp only [List.getElem?_cons_zero, Option.some.injEq] at h
      simp [h]
    | succ r =>
      have hy : y ≠ x := by
        intro e
        have := hfirst 0 (by simp [e])
        omega
      simp only [List.getElem?_cons_succ] at h
      have := ih r h (by
        intro r' hr'
        have := hfirst (r' + 1) (by simpa using hr')
        omega)
      simp only [hy, if_false, this]
      have : ¬ ((r : Int) < 0) := by omega
      simp only [this, if_false]
      push_cast
      rfl

theorem DependencyModel.makeId_eq (u : Nat) (f : Int) (hu : u < 2 ^ 32) :
    makeId u f = 2 ^ 32 * (f % 2 ^ 32).toNat + u := by
  unfold makeId
  simp only []
  rw [Nat.shiftLeft_eq, Nat.or_comm, Nat.mul_comm, Nat.mul_add_lt_is_or hu]

theorem DependencyModel.nodeId_makeId (u : Nat) (f : Int) (hu : u < 2 ^ 32) :
    nodeId (makeId u f) = u := by
  rw [makeId_eq u f hu]
  unfold nodeId
  omega

theorem DependencyModel.fileIndex_makeId (u : Nat) (f : Int) (hu : u < 2 ^ 32)
    (hf : f = InvalidFile ∨ (0 ≤ f ∧ f < 2 ^ 31)) :
    fileIndex (makeId u f) = f := by
  rw [makeId_eq u f hu]
  unfold fileIndex toInt32
  rw [Nat.shiftRight_eq_div_pow]
  have hdiv : (2 ^ 32 * (f % 2 ^ 32).toNat + u) / 2 ^ 32 = (f % 2 ^ 32).toNat := by omega
  rw [hdiv]
  unfold InvalidFile at hf
  split <;> omega

theorem DependencyModel.childrenOf_getElem? (s : DependencyModel) (q : Nat)
    (h : q < s.m_childMap.length) : s.m_childMap[q]? = some (childrenOf s q) := by
  unfold childrenOf
  rw [List.getD_eq_getElem?_getD, List.getElem?_eq_getElem h]
  rfl

theorem DependencyModel.childrenOf_of_le (s : DependencyModel) (q : Nat)
    (h : s.m_childMap.length ≤ q) : childrenOf s q = [] := by
  unfold childrenOf
  rw [List.getD_eq_getElem?_getD, List.getElem?_eq_none h]
  rfl

theorem DependencyModel.buildFileIndex_range (files : List ElfFile) (i : Nat)
    (h : List (String × Int)) (n : String) (v : Int)
    (hv : qhashFind (buildFileIndex files i h) n = some v) :
    qhashFind h n = some v ∨ ((i : Int) ≤ v ∧ v < (i + files.length : Nat)) := by
  induction files generalizing i h with
  | nil => left; exact hv
  | cons fl rest ih =>
    simp only [buildFileIndex] at hv
    split at hv
    · rcases ih _ _ hv with h1 | h1
      · rw [qhashFind_insert] at h1
        split at h1
        · right
          simp only [Option.some.injEq] at h1
          simp only [List.length_cons]
          omega
        · left; exact h1
      · right
        simp only [List.length_cons]
        omega
    · rcases ih _ _ hv with h1 | h1
      · left; exact h1
      · right
        simp only [List.length_cons]
        omega

theorem DependencyModel.Inv.fileIndexByName_valid {fs : FileSetRef} {s : DependencyModel}
    (inv : Inv fs s) (n : String) : ValidFile fs (fileIndexByName s n) := by
  unfold fileIndexByName
  cases hq : qhashFind s.m_fileIndex n with
  | none => left; rfl
  | some v =>
    right
    rw [inv.fileIndex_eq] at hq
    rcases buildFileIndex_range _ _ _ _ _ hq with h1 | h1
    · simp [qhashFind] at h1
    · simp only [ElfFileSet.size]
      omega

theorem DependencyModel.ValidFile.bound {fs : FileSetRef} {f : Int} (h : ValidFile fs f) :
    f = InvalidFile ∨ (0 ≤ f ∧ f < 2 ^ 31) := by
  rcases h with h | h
  · left; exact h
  · right
    have := fs.set.m_files_size
    unfold QVectorMax at this
    unfold ElfFileSet.size at h
    omega

theorem DependencyModel.ValidFile.file {fs : FileSetRef} {f : Int} (h : ValidFile fs f)
    (hne : f ≠ InvalidFile) : ∃ fl, fs.set.file f = .ok fl := by
  rcases h with h | h
  · exact absurd h hne
  · unfold ElfFileSet.file
    have hlt : f.toNat < fs.set.m_files.length := by
      unfold ElfFileSet.size at h; omega
    refine ⟨fs.set.m_files[f.toNat], ?_⟩
    have : ¬ f < 0 := by omega
    simp only [this, if_false]
    exact vecAt_of_getElem? (List.getElem?_eq_getElem hlt)

end ElfDissector

/-! ### `parent`, `hasCycle` and the ancestors of a node -/

namespace ElfDissector

open DependencyModel

theorem createIndex_isValid (r : Nat) (id : Nat) : (createIndex (r : Int) 0 id).isValid = true := by
  simp [createIndex, QModelIndex.isValid]

theorem DependencyModel.Inv.parent_of_entry {fs : FileSetRef} {s : DependencyModel}
    (inv : Inv fs s) {q r id : Nat} (h : (childrenOf s q)[r]? = some id) :
    ∃ pid, s.m_parentMap[nodeId id]? = some pid ∧ nodeId pid = q ∧
      ((pid = 0 ∧ parent s (createIndex r 0 id) = .ok {}) ∨
       (∃ q' r' : Nat, (childrenOf s q')[r']? = some pid
          ∧ parent s (createIndex r 0 id) = .ok (createIndex r' 0 pid))) := by
  obtain ⟨hq, hle, -, pid, hpid, hnode, hprod⟩ := inv.child q r id h
  refine ⟨pid, hpid, hnode, ?_⟩
  have hb := inv.bound
  have hlen : toUInt32 s.m_parentMap.length = s.m_uniqueIndex + 1 := by
    rw [inv.parentMap_length]; exact toUInt32_of_le hb
  have hlenc : toUInt32 s.m_childMap.length = s.m_uniqueIndex + 1 := by
    rw [inv.childMap_length]; exact toUInt32_of_le hb
  have hstart : parent s (createIndex r 0 id) =
      (if nodeId pid = 0 then .ok {}
       else do
        assert (decide (toUInt32 s.m_parentMap.length > nodeId pid))
        let grandParentNode := nodeId (← vecAt s.m_parentMap (nodeId pid))
        assert (decide (toUInt32 s.m_childMap.length > grandParentNode))
        let children ← vecAt s.m_childMap grandParentNode
        let row := indexOf children pid
        assert (decide (row ≥ 0))
        return createIndex row 0 pid) := by
    unfold parent
    simp only [inv.fileSet, Option.isNone_some, createIndex_isValid, Bool.not_true,
      Bool.or_self, Bool.false_eq_true, if_false]
    have h1 : (createIndex (r : Int) 0 id).internalId = id := rfl
    rw [h1, hlen, assert_of (by simp; omega), ok_bind, vecAt_of_getElem? hpid, ok_bind]
  rw [hstart]
  rcases hprod with h0 | ⟨q', r', hpr⟩
  · left
    subst h0
    exact ⟨rfl, rfl⟩
  · right
    refine ⟨q', r', hpr, ?_⟩
    obtain ⟨hq', hle', -, ppid, hppid, hpnode, -⟩ := inv.child q' r' pid hpr
    have hne : nodeId pid ≠ 0 := by omega
    have hrow : indexOf (childrenOf s q') pid = (r' : Int) :=
      indexOf_eq_of_first _ _ _ hpr (fun r'' hr'' => inv.distinct q' r'' r' pid pid hr'' hpr rfl)
    rw [if_neg hne, hlen, assert_of (by simp; omega), ok_bind, vecAt_of_getElem? hppid, ok_bind,
      hlenc, hpnode]
    simp only []
    rw [assert_of (by simp; omega), ok_bind,
      vecAt_of_getElem? (childrenOf_getElem? s q' (by rw [inv.childMap_length]; omega)), ok_bind,
      hrow, assert_of (by simp), ok_bind]
    rfl

end ElfDissector

namespace ElfDissector

open DependencyModel

theorem DependencyModel.Inv.parentMap_lt {fs : FileSetRef} {s : DependencyModel}
    (inv : Inv fs s) {j pid : Nat} (hj : 1 ≤ j) (h : s.m_parentMap[j]? = some pid) :
    nodeId pid < j := by
  have hlt : j < s.m_parentMap.length := by
    by_contra hc
    rw [List.getElem?_eq_none (by omega)] at h
    cases h
  rw [inv.parentMap_length] at hlt
  obtain ⟨q, r, id, hent, hid⟩ := inv.covered j hj (by omega)
  obtain ⟨hq, -, -, pid', hpid', hnode, -⟩ := inv.child q r id hent
  rw [hid, h] at hpid'
  cases hpid'
  omega

theorem DependencyModel.chain_succ (s : DependencyModel) (fuel id : Nat) :
    chain s (fuel + 1) id =
      match s.m_parentMap[nodeId id]? with
      | none => []
      | some pid => if nodeId pid = 0 then [] else pid :: chain s fuel pid := rfl

theorem DependencyModel.Inv.chain_zero {fs : FileSetRef} {s : DependencyModel}
    (inv : Inv fs s) (fuel id : Nat) (h : nodeId id = 0) : chain s fuel id = [] := by
  cases fuel with
  | zero => rfl
  | succ fuel =>
    unfold chain
    rw [h, inv.root_parent]
    rfl

theorem DependencyModel.Inv.chain_fuel {fs : FileSetRef} {s : DependencyModel}
    (inv : Inv fs s) (fuel fuel' id : Nat) (h : nodeId id ≤ fuel) (h' : nodeId id ≤ fuel') :
    chain s fuel id = chain s fuel' id := by
  induction fuel generalizing fuel' id with
  | zero =>
    rw [inv.chain_zero 0 id (by omega), inv.chain_zero fuel' id (by omega)]
  | succ fuel ih =>
    by_cases h0 : nodeId id = 0
    · rw [inv.chain_zero _ id h0, inv.chain_zero fuel' id h0]
    · cases fuel' with
      | zero => omega
      | succ fuel' =>
        unfold chain
        cases hp : s.m_parentMap[nodeId id]? with
        | none => rfl
        | some pid =>
          have := inv.parentMap_lt (by omega) hp
          simp only []
          split
          · rfl
          · rw [ih fuel' pid (by omega) (by omega)]

theorem DependencyModel.Inv.chain_of_parent {fs : FileSetRef} {s : DependencyModel}
    (inv : Inv fs s) {id pid : Nat} (hid : 1 ≤ nodeId id)
    (hp : s.m_parentMap[nodeId id]? = some pid) :
    chain s (nodeId id) id = if nodeId pid = 0 then [] else pid :: chain s (nodeId pid) pid := by
  have hlt := inv.parentMap_lt hid hp
  obtain ⟨n, hn⟩ : ∃ n, nodeId id = n + 1 := ⟨nodeId id - 1, by omega⟩
  have e : chain s (nodeId id) id = chain s (n + 1) id := by rw [hn]
  rw [e, chain_succ, hp]
  simp only []
  split
  · rfl
  · rw [inv.chain_fuel n (nodeId pid) pid (by omega) (le_refl _)]

theorem DependencyModel.parent_invalid (s : DependencyModel) :
    parent s {} = .ok {} := by
  unfold parent
  simp [QModelIndex.isValid]

theorem DependencyModel.Inv.hasCycleLoop_entry {fs : FileSetRef} {s : DependencyModel}
    (inv : Inv fs s) (file : Int) (fuel : Nat) :
    ∀ q r id : Nat, (childrenOf s q)[r]? = some id → nodeId id < fuel →
      hasCycleLoop s file fuel (createIndex r 0 id)
        = .ok (decide (file ∈ (chain s (nodeId id) id).map fileIndex)) := by
  induction fuel with
  | zero => intro q r id _ h; omega
  | succ fuel ih =>
    intro q r id hent hfuel
    obtain ⟨hq, -, -⟩ := inv.child q r id hent
    obtain ⟨pid, hpid, hnode, hpar⟩ := inv.parent_of_entry hent
    rw [inv.chain_of_parent (by omega) hpid]
    unfold hasCycleLoop
    rcases hpar with ⟨h0, hpar⟩ | ⟨q', r', hpr, hpar⟩
    · subst h0
      rw [hpar, ok_bind]
      simp [QModelIndex.isValid, nodeId]
    · obtain ⟨hq', -, -⟩ := inv.child q' r' pid hpr
      have hne : nodeId pid ≠ 0 := by omega
      rw [hpar, ok_bind, if_neg hne]
      simp only [createIndex_isValid, Bool.not_true, Bool.false_eq_true, if_false]
      have h1 : (createIndex (r' : Int) 0 pid).internalId = pid := rfl
      rw [h1]
      by_cases hf : fileIndex pid = file
      · simp [hf]
      · rw [if_neg hf, ih q' r' pid hpr (by omega)]
        have hf' : ¬ file = fileIndex pid := fun e => hf e.symm
        simp [hf']

theorem DependencyModel.Inv.hasCycle_entry {fs : FileSetRef} {s : DependencyModel}
    (inv : Inv fs s) {q r id : Nat} (hent : (childrenOf s q)[r]? = some id) :
    hasCycle s (createIndex r 0 id)
      = .ok (decide (fileIndex id ∈ (chain s (nodeId id) id).map fileIndex)) := by
  obtain ⟨-, hle, -⟩ := inv.child q r id hent
  unfold hasCycle
  exact inv.hasCycleLoop_entry _ _ q r id hent (by rw [inv.parentMap_length]; omega)

theorem DependencyModel.hasCycle_invalid (s : DependencyModel) :
    hasCycle s {} = .ok false := by
  unfold hasCycle hasCycleLoop
  rw [parent_invalid, ok_bind]
  rfl

theorem DependencyModel.Inv.ancestorsLoop_entry {fs : FileSetRef} {s : DependencyModel}
    (inv : Inv fs s) (fuel : Nat) :
    ∀ q r id : Nat, (childrenOf s q)[r]? = some id → nodeId id < fuel →
      ∃ path, ancestorsLoop s fuel (createIndex r 0 id) = .ok path
        ∧ path.map (fun x => x.internalId) = chain s (nodeId id) id
        ∧ ∀ x ∈ path, Produced s x := by
  induction fuel with
  | zero => intro q r id _ h; omega
  | succ fuel ih =>
    intro q r id hent hfuel
    obtain ⟨hq, -, -⟩ := inv.child q r id hent
    obtain ⟨pid, hpid, hnode, hpar⟩ := inv.parent_of_entry hent
    rw [inv.chain_of_parent (by omega) hpid]
    unfold ancestorsLoop
    rcases hpar with ⟨h0, hpar⟩ | ⟨q', r', hpr, hpar⟩
    · subst h0
      rw [hpar, ok_bind]
      refine ⟨[], ?_, ?_, ?_⟩
      · simp [QModelIndex.isValid]
      · simp [nodeId]
      · intro x hx; cases hx
    · obtain ⟨hq', -, -⟩ := inv.child q' r' pid hpr
      have hne : nodeId pid ≠ 0 := by omega
      obtain ⟨rest, hrest, hmap, hprod⟩ := ih q' r' pid hpr (by omega)
      rw [hpar, ok_bind, if_neg hne]
      simp only [createIndex_isValid, Bool.not_true, Bool.false_eq_true, if_false]
      rw [hrest, ok_bind]
      refine ⟨createIndex r' 0 pid :: rest, rfl, ?_, ?_⟩
      · simp only [List.map_cons, hmap]
        rfl
      · intro x hx
        rcases List.mem_cons.mp hx with hx | hx
        · subst hx
          exact ⟨q', r', hpr, rfl⟩
        · exact hprod x hx

end ElfDissector

/-! ### The loop of `rowCount` in closed form -/

namespace ElfDissector

open DependencyModel

theorem DependencyModel.newIds_length (u : Nat) (l : List Int) : (newIds u l).length = l.length := by
  induction l generalizing u with
  | nil => rfl
  | cons f rest ih => simp [newIds, ih]

theorem DependencyModel.newIds_getElem? (u : Nat) (l : List Int) (k : Nat) :
    (newIds u l)[k]? = (l[k]?).map (fun f => makeId (u + 1 + k) f) := by
  induction l generalizing u k with
  | nil => simp [newIds]
  | cons f rest ih =>
    cases k with
    | zero => simp [newIds]
    | succ k =>
      simp only [newIds, List.getElem?_cons_succ, ih]
      congr 1
      funext f
      congr 1
      omega

theorem DependencyModel.expand_nil (s : DependencyModel) (node parentId : Nat) :
    expand s node parentId [] = s := by
  unfold expand
  cases s with
  | mk fsr fi cm pm u =>
    simp only [List.length_nil, Nat.add_zero, List.replicate_zero, List.append_nil,
      DependencyModel.mk.injEq, true_and, and_true]
    unfold childrenOf
    simp only []
    apply List.ext_getElem?
    intro i
    rw [List.getElem?_set]
    split
    · rename_i h
      subst h
      split
      · rename_i h2
        rw [List.getD_eq_getElem?_getD, List.getElem?_eq_getElem h2]
        rfl
      · rename_i h2
        rw [List.getElem?_eq_none (by omega)]
    · rfl

theorem DependencyModel.childrenOf_pushChild (s : DependencyModel) (node pid c : Nat)
    (h : node < s.m_childMap.length) :
    childrenOf (pushChild s node pid c) node = childrenOf s node ++ [c] := by
  have e : childrenOf (pushChild s node pid c) node
      = (s.m_childMap.set node (childrenOf s node ++ [c]) ++ [[]]).getD node [] := rfl
  rw [e, List.getD_eq_getElem?_getD, List.getElem?_append_left (by simp; omega),
    List.getElem?_set, if_pos rfl, if_pos h]
  rfl

theorem DependencyModel.expand_pushChild (s : DependencyModel) (node pid c : Nat)
    (ids : List Nat) (h : node < s.m_childMap.length) :
    expand (pushChild s node pid c) node pid ids = expand s node pid (c :: ids) := by
  have hch := childrenOf_pushChild s node pid c h
  unfold expand
  rw [hch]
  unfold pushChild
  simp only [List.length_cons, DependencyModel.mk.injEq, true_and]
  refine ⟨?_, ?_, by omega⟩
  · rw [List.set_append, if_pos (by simp; omega), List.set_set, List.replicate_succ,
      List.append_assoc, List.append_assoc]
    rfl
  · rw [List.replicate_succ, List.append_assoc]
    rfl

theorem DependencyModel.rowCountLoop_cons (s : DependencyModel) (node pid : Nat)
    (need : String) (rest : List String)
    (hp : s.m_parentMap.length = s.m_uniqueIndex + 1)
    (hc : s.m_childMap.length = s.m_uniqueIndex + 1)
    (hnode : node ≤ s.m_uniqueIndex)
    (hch : (childrenOf s node).length ≤ s.m_uniqueIndex)
    (hcap : s.m_uniqueIndex + 1 < QVectorMax) :
    rowCountLoop s node pid (need :: rest) =
      rowCountLoop (pushChild s node pid (makeId (s.m_uniqueIndex + 1) (fileIndexByName s need)))
        node pid rest := by
  have hq : QVectorMax = 2147483647 := rfl
  have hu : (s.m_uniqueIndex + 1) % 2 ^ 32 = s.m_uniqueIndex + 1 :=
    Nat.mod_eq_of_lt (by omega)
  have hu2 : (s.m_uniqueIndex + 1 + 1) % 2 ^ 32 = s.m_uniqueIndex + 1 + 1 :=
    Nat.mod_eq_of_lt (by omega)
  have hget : (s.m_childMap ++ [[]])[node]? = some (childrenOf s node) := by
    rw [List.getElem?_append_left (by omega)]
    exact childrenOf_getElem? s node (by omega)
  have hset : (s.m_childMap ++ [[]]).set node
        (childrenOf s node ++ [makeId (s.m_uniqueIndex + 1) (fileIndexByName s need)])
      = s.m_childMap.set node
          (childrenOf s node ++ [makeId (s.m_uniqueIndex + 1) (fileIndexByName s need)])
        ++ [[]] := by
    rw [List.set_append, if_pos (by omega)]
  rw [rowCountLoop]
  simp only []
  rw [pushBack_of_lt _ (by omega), ok_bind, pushBack_of_lt _ (by omega), ok_bind,
    vecAt_of_getElem? hget, ok_bind, pushBack_of_lt _ (by omega), ok_bind, hu,
    assert_of (by simp [toUInt32, hp, hu2]), ok_bind,
    assert_of (by simp [toUInt32, hc, hu2]), ok_bind, hset]
  rfl

theorem DependencyModel.rowCountLoop_eq (needed : List String) :
    ∀ (s : DependencyModel) (node pid : Nat),
      s.m_parentMap.length = s.m_uniqueIndex + 1 →
      s.m_childMap.length = s.m_uniqueIndex + 1 →
      s.m_uniqueIndex + 1 ≤ QVectorMax →
      node ≤ s.m_uniqueIndex →
      (childrenOf s node).length ≤ s.m_uniqueIndex →
      rowCountLoop s node pid needed =
        if s.m_uniqueIndex + 1 + needed.length ≤ QVectorMax then
          .ok (expand s node pid (newIds s.m_uniqueIndex (needed.map (fileIndexByName s))))
        else .error .badAlloc := by
  induction needed with
  | nil =>
    intro s node pid _ _ hb _ _
    simp only [List.length_nil, Nat.add_zero, hb, if_true, List.map_nil, newIds, expand_nil]
    rfl
  | cons need rest ih =>
    intro s node pid hp hc hb hnode hch
    by_cases hcap : s.m_uniqueIndex + 1 < QVectorMax
    · rw [rowCountLoop_cons s node pid need rest hp hc hnode hch hcap]
      have hch' := childrenOf_pushChild s node pid
        (makeId (s.m_uniqueIndex + 1) (fileIndexByName s need)) (by omega)
      rw [ih _ node pid (by simp [pushChild, hp]) (by simp [pushChild, hc])
        (by simp only [pushChild]; omega) (by simp only [pushChild]; omega)
        (by rw [hch']; simp only [pushChild, List.length_append, List.length_singleton]; omega)]
      have hu : (pushChild s node pid
          (makeId (s.m_uniqueIndex + 1) (fileIndexByName s need))).m_uniqueIndex
          = s.m_uniqueIndex + 1 := rfl
      have hfi : fileIndexByName (pushChild s node pid
          (makeId (s.m_uniqueIndex + 1) (fileIndexByName s need))) = fileIndexByName s := rfl
      rw [hu, hfi, expand_pushChild s node pid _ _ (by omega)]
      simp only [List.length_cons, List.map_cons, newIds]
      have hc1 : (s.m_uniqueIndex + 1 + 1 + rest.length ≤ QVectorMax)
          ↔ (s.m_uniqueIndex + 1 + (rest.length + 1) ≤ QVectorMax) := by omega
      by_cases hfin : s.m_uniqueIndex + 1 + (rest.length + 1) ≤ QVectorMax
      · rw [if_pos (hc1.mpr hfin), if_pos hfin]
      · rw [if_neg (fun h => hfin (hc1.mp h)), if_neg hfin]
    · rw [rowCountLoop]
      simp only []
      rw [pushBack_of_not_lt _ (by omega), error_bind, if_neg]
      simp only [List.length_cons]
      omega

end ElfDissector

/-! ### The invariant is kept -/

namespace ElfDissector

open DependencyModel

theorem DependencyModel.childrenOf_expand (s : DependencyModel) (node pid : Nat)
    (ids : List Nat) (h : node < s.m_childMap.length) (x : Nat) :
    childrenOf (expand s node pid ids) x
      = if x = node then childrenOf s node ++ ids else childrenOf s x := by
  have e : childrenOf (expand s node pid ids) x
      = (s.m_childMap.set node (childrenOf s node ++ ids)
          ++ List.replicate ids.length []).getD x [] := rfl
  rw [e, List.getD_eq_getElem?_getD]
  by_cases hx : x < s.m_childMap.length
  · rw [List.getElem?_append_left (by simp; omega), List.getElem?_set]
    by_cases hn : x = node
    · subst hn
      simp [h]
    · have hn' : ¬ node = x := fun e => hn e.symm
      rw [if_neg hn', if_neg hn]
      unfold childrenOf
      rw [List.getD_eq_getElem?_getD]
  · have hn : ¬ x = node := by omega
    rw [if_neg hn, childrenOf_of_le s x (by omega),
      List.getElem?_append_right (by simp; omega), List.getElem?_replicate]
    split <;> rfl

theorem DependencyModel.parentMap_expand (s : DependencyModel) (node pid : Nat)
    (ids : List Nat) (j : Nat) :
    (expand s node pid ids).m_parentMap[j]?
      = if j < s.m_parentMap.length then s.m_parentMap[j]?
        else if j < s.m_parentMap.length + ids.length then some pid else none := by
  have e : (expand s node pid ids).m_parentMap
      = s.m_parentMap ++ List.replicate ids.length pid := rfl
  rw [e]
  by_cases hj : j < s.m_parentMap.length
  · rw [if_pos hj, List.getElem?_append_left hj]
  · rw [if_neg hj, List.getElem?_append_right (by omega), List.getElem?_replicate]
    by_cases h2 : j < s.m_parentMap.length + ids.length
    · rw [if_pos h2, if_pos (by omega)]
    · rw [if_neg h2, if_neg (by omega)]

theorem DependencyModel.Inv.entry_unique {fs : FileSetRef} {s : DependencyModel}
    (inv : Inv fs s) {q r id q' r' id' : Nat} (h : (childrenOf s q)[r]? = some id)
    (h' : (childrenOf s q')[r']? = some id') (hid : nodeId id = nodeId id') :
    q = q' ∧ r = r' ∧ id = id' := by
  obtain ⟨-, -, -, pid, hpid, hnode, -⟩ := inv.child q r id h
  obtain ⟨-, -, -, pid', hpid', hnode', -⟩ := inv.child q' r' id' h'
  rw [hid, hpid'] at hpid
  cases hpid
  have hq : q = q' := by omega
  subst hq
  have hr := inv.distinct q r r' id id' h h' hid
  subst hr
  rw [h] at h'
  exact ⟨rfl, rfl, Option.some.inj h'⟩

theorem DependencyModel.Inv.entry_node_le {fs : FileSetRef} {s : DependencyModel}
    (inv : Inv fs s) {q r id : Nat} (h : (childrenOf s q)[r]? = some id) :
    q ≤ s.m_uniqueIndex := by
  by_contra hc
  rw [childrenOf_of_le s q (by rw [inv.childMap_length]; omega)] at h
  simp at h

theorem DependencyModel.chain_expand {fs : FileSetRef} {s : DependencyModel}
    (inv : Inv fs s) (node pid : Nat) (ids : List Nat) (fuel : Nat) :
    ∀ x, nodeId x ≤ s.m_uniqueIndex →
      chain (expand s node pid ids) fuel x = chain s fuel x := by
  induction fuel with
  | zero => intro x _; rfl
  | succ fuel ih =>
    intro x hx
    rw [chain_succ, chain_succ, parentMap_expand, if_pos (by rw [inv.parentMap_length]; omega)]
    cases hp : s.m_parentMap[nodeId x]? with
    | none => rfl
    | some ppid =>
      simp only []
      split
      · rfl
      · by_cases h0 : nodeId x = 0
        · rw [h0, inv.root_parent] at hp
          cases hp
          rename_i hne
          exact absurd rfl hne
        · have := inv.parentMap_lt (by omega) hp
          rw [ih ppid (by omega)]

theorem DependencyModel.newIds_map_fileIndex (u : Nat) (l : List Int)
    (hu : u + l.length < 2 ^ 32)
    (hl : ∀ f ∈ l, f = InvalidFile ∨ (0 ≤ f ∧ f < 2 ^ 31)) :
    (newIds u l).map fileIndex = l := by
  induction l generalizing u with
  | nil => rfl
  | cons f rest ih =>
    simp only [List.length_cons] at hu
    simp only [newIds, List.map_cons]
    rw [fileIndex_makeId (u + 1) f (by omega) (hl f (List.mem_cons_self _ _)),
      ih (u + 1) (by omega) (fun g hg => hl g (List.mem_cons_of_mem _ hg))]

end ElfDissector

namespace ElfDissector

open DependencyModel

theorem DependencyModel.Inv.newIds_entry {fs : FileSetRef} {s : DependencyModel}
    (inv : Inv fs s) (needed : List String)
    (hcap : s.m_uniqueIndex + 1 + needed.length ≤ QVectorMax) (k c : Nat)
    (h : (newIds s.m_uniqueIndex (needed.map (fileIndexByName s)))[k]? = some c) :
    ∃ need, needed[k]? = some need
      ∧ c = makeId (s.m_uniqueIndex + 1 + k) (fileIndexByName s need)
      ∧ nodeId c = s.m_uniqueIndex + 1 + k
      ∧ fileIndex c = fileIndexByName s need
      ∧ k < needed.length := by
  rw [newIds_getElem?, List.getElem?_map] at h
  cases hk : needed[k]? with
  | none => rw [hk] at h; cases h
  | some need =>
    rw [hk] at h
    simp only [Option.map_some', Option.some.injEq] at h
    have hklt : k < needed.length := by
      by_contra hc
      rw [List.getElem?_eq_none (by omega)] at hk
      cases hk
    have hq : QVectorMax = 2147483647 := rfl
    have hlt : s.m_uniqueIndex + 1 + k < 2 ^ 32 := by omega
    refine ⟨need, rfl, h.symm, ?_, ?_, hklt⟩
    · rw [← h]; exact nodeId_makeId _ _ hlt
    · rw [← h]; exact fileIndex_makeId _ _ hlt (inv.fileIndexByName_valid need).bound

theorem DependencyModel.Inv.expand {fs : FileSetRef} {s : DependencyModel}
    (inv : Inv fs s) {q r id : Nat} {fl : ElfFile}
    (hent : (childrenOf s q)[r]? = some id)
    (hleaf : childrenOf s (nodeId id) = [])
    (hfile : fs.set.file (fileIndex id) = .ok fl)
    (hcyc : fileIndex id ∉ (chain s (nodeId id) id).map fileIndex)
    (hcap : s.m_uniqueIndex + 1 + fl.neededLibraries.length ≤ QVectorMax) :
    Inv fs (DependencyModel.expand s (nodeId id) id
      (newIds s.m_uniqueIndex (fl.neededLibraries.map (fileIndexByName s)))) := by
  obtain ⟨hq, hnodeN, -, -⟩ := inv.child q r id hent
  have hlen : (newIds s.m_uniqueIndex (fl.neededLibraries.map (fileIndexByName s))).length
      = fl.neededLibraries.length := by
    rw [newIds_length, List.length_map]
  have hch : ∀ x, childrenOf (DependencyModel.expand s (nodeId id) id
        (newIds s.m_uniqueIndex (fl.neededLibraries.map (fileIndexByName s)))) x
      = if x = nodeId id then newIds s.m_uniqueIndex (fl.neededLibraries.map (fileIndexByName s))
        else childrenOf s x := by
    intro x
    rw [childrenOf_expand s _ _ _ (by rw [inv.childMap_length]; omega), hleaf, List.nil_append]
  have hpm := parentMap_expand s (nodeId id) id
    (newIds s.m_uniqueIndex (fl.neededLibraries.map (fileIndexByName s)))
  rw [hlen, inv.parentMap_length] at hpm
  have hnew := inv.newIds_entry fl.neededLibraries hcap
  have hmono : ∀ x r c : Nat, (childrenOf s x)[r]? = some c →
      (childrenOf (DependencyModel.expand s (nodeId id) id
        (newIds s.m_uniqueIndex (fl.neededLibraries.map (fileIndexByName s)))) x)[r]?
        = some c := by
    intro x r c hc
    rw [hch]
    split
    · rename_i hx
      rw [hx, hleaf] at hc
      simp at hc
    · exact hc
  have hfi : fileIndexByName (DependencyModel.expand s (nodeId id) id
        (newIds s.m_uniqueIndex (fl.neededLibraries.map (fileIndexByName s))))
      = fileIndexByName s := rfl
  have hN : (DependencyModel.expand s (nodeId id) id
        (newIds s.m_uniqueIndex (fl.neededLibraries.map (fileIndexByName s)))).m_uniqueIndex
      = s.m_uniqueIndex + fl.neededLibraries.length := by
    simp only [DependencyModel.expand, hlen]
  have hroot : (0 : Nat) ≠ nodeId id := by
    intro e
    have := inv.root_children
    rw [e, hleaf] at this
    cases this
  refine
    { fileSet := inv.fileSet
      nonempty := inv.nonempty
      fileIndex_eq := inv.fileIndex_eq
      parentMap_length := ?_
      childMap_length := ?_
      bound := ?_
      root_parent := ?_
      root_children := ?_
      child := ?_
      distinct := ?_
      covered := ?_
      expanded := ?_ }
  · simp only [DependencyModel.expand, List.length_append, List.length_replicate,
      inv.parentMap_length]
    omega
  · simp only [DependencyModel.expand, List.length_append, List.length_replicate,
      List.length_set, inv.childMap_length]
    omega
  · rw [hN]
    omega
  · rw [hpm, if_pos (by omega)]
    exact inv.root_parent
  · rw [hch, if_neg hroot]
    exact inv.root_children
  · intro x k c hc
    rw [hch] at hc
    rw [hN]
    split at hc
    · rename_i hx
      obtain ⟨need, -, -, hn, hf, hk⟩ := hnew k c hc
      refine ⟨by omega, by omega, ?_, id, ?_, hx.symm, Or.inr ⟨q, r, hmono q r id hent⟩⟩
      · rw [hf]; exact inv.fileIndexByName_valid need
      · rw [hn, hpm, if_neg (by omega), if_pos (by omega)]
    · obtain ⟨h1, h2, h3, pid, h4, h5, h6⟩ := inv.child x k c hc
      refine ⟨h1, by omega, h3, pid, ?_, h5, ?_⟩
      · rw [hpm, if_pos (by omega)]; exact h4
      · rcases h6 with h6 | ⟨q', r', h6⟩
        · exact Or.inl h6
        · exact Or.inr ⟨q', r', hmono q' r' pid h6⟩
  · intro x k k' c c' hc hc' hcc
    rw [hch] at hc hc'
    by_cases hx : x = nodeId id
    · rw [if_pos hx] at hc hc'
      obtain ⟨-, -, -, hn, -, -⟩ := hnew k c hc
      obtain ⟨-, -, -, hn', -, -⟩ := hnew k' c' hc'
      omega
    · rw [if_neg hx] at hc hc'
      exact inv.distinct x k k' c c' hc hc' hcc
  · intro j hj hjle
    rw [hN] at hjle
    by_cases hold : j ≤ s.m_uniqueIndex
    · obtain ⟨x, k, c, hc, hcj⟩ := inv.covered j hj hold
      exact ⟨x, k, c, hmono x k c hc, hcj⟩
    · have hk : j - (s.m_uniqueIndex + 1) < (newIds s.m_uniqueIndex
          (fl.neededLibraries.map (fileIndexByName s))).length := by
        rw [hlen]; omega
      refine ⟨nodeId id, j - (s.m_uniqueIndex + 1),
        (newIds s.m_uniqueIndex (fl.neededLibraries.map (fileIndexByName s)))[
          j - (s.m_uniqueIndex + 1)], ?_, ?_⟩
      · rw [hch, if_pos rfl]
        exact List.getElem?_eq_getElem hk
      · obtain ⟨-, -, -, hn, -, -⟩ := hnew _ _ (List.getElem?_eq_getElem hk)
        rw [hn]; omega
  · intro q0 r0 pid hpid hne
    rw [hfi]
    rw [hch] at hpid
    have hq : QVectorMax = 2147483647 := rfl
    split at hpid
    · -- a child created by this call has no children
      exfalso
      obtain ⟨-, -, -, hn, -, -⟩ := hnew r0 pid hpid
      apply hne
      rw [hch, if_neg (by omega)]
      exact childrenOf_of_le s _ (by rw [inv.childMap_length]; omega)
    · obtain ⟨-, hpidN, -, -⟩ := inv.child q0 r0 pid hpid
      rw [chain_expand inv _ _ _ _ pid hpidN]
      by_cases hx : nodeId pid = nodeId id
      · obtain ⟨-, -, hpe⟩ := inv.entry_unique hpid hent hx
        subst hpe
        refine ⟨fl, hfile, ?_, hcyc⟩
        rw [hch, if_pos rfl]
        exact newIds_map_fileIndex _ _ (by rw [List.length_map]; omega)
          (by
            intro f hf
            obtain ⟨need, -, rfl⟩ := List.mem_map.mp hf
            exact (inv.fileIndexByName_valid need).bound)
      · rw [hch, if_neg hx] at hne ⊢
        exact inv.expanded q0 r0 pid hpid hne

end ElfDissector

/-! ### What `rowCount` and `index` return -/

namespace ElfDissector

open DependencyModel

theorem DependencyModel.setFileSet_nonempty (s0 s : DependencyModel) (fs : FileSetRef)
    (hptr : s0.m_fileSet.map (fun p => p.addr) ≠ some fs.addr)
    (hsize : fs.set.size ≠ 0)
    (hset : setFileSet s0 (some fs) = .ok s) :
    s = rooted fs := by
  unfold setFileSet at hset
  simp only [Option.map_some', hptr, if_false, hsize] at hset
  have e : (Except.ok s : Except Fault DependencyModel) = Except.ok _ := hset.symm.trans rfl
  exact Except.ok.inj e

theorem DependencyModel.entry_rooted (fs : FileSetRef) (x k c : Nat)
    (h : (childrenOf (rooted fs) x)[k]? = some c) :
    x = 0 ∧ k = 0 ∧ c = makeId 1 0 := by
  match x, k with
  | 0, 0 =>
    have : c = makeId 1 0 := by
      simp only [childrenOf, rooted, List.getD_cons_zero, List.getElem?_cons_zero,
        Option.some.injEq] at h
      exact h.symm
    exact ⟨rfl, rfl, this⟩
  | 0, k + 1 => simp [childrenOf, rooted] at h
  | 1, k => simp [childrenOf, rooted] at h
  | x + 2, k => simp [childrenOf, rooted] at h

theorem DependencyModel.Inv.rooted (fs : FileSetRef) (hsize : fs.set.size ≠ 0) :
    Inv fs (DependencyModel.rooted fs) := by
  have hn1 : nodeId (makeId 1 0) = 1 := by decide
  have hf1 : fileIndex (makeId 1 0) = 0 := by decide
  refine
    { fileSet := rfl
      nonempty := hsize
      fileIndex_eq := rfl
      parentMap_length := rfl
      childMap_length := rfl
      bound := ?_
      root_parent := rfl
      root_children := rfl
      child := ?_
      distinct := ?_
      covered := ?_
      expanded := ?_ }
  · show 1 + 1 ≤ QVectorMax
    decide
  · intro x k c h
    obtain ⟨rfl, rfl, rfl⟩ := entry_rooted fs x k c h
    rw [hn1, hf1]
    refine ⟨by omega, le_refl _, Or.inr ⟨le_refl _, ?_⟩, 0, rfl, rfl, Or.inl rfl⟩
    have : 0 < fs.set.size := Nat.pos_of_ne_zero hsize
    exact_mod_cast this
  · intro x k k' c c' h h' _
    obtain ⟨-, rfl, -⟩ := entry_rooted fs x k c h
    obtain ⟨-, rfl, -⟩ := entry_rooted fs x k' c' h'
    rfl
  · intro j hj hj1
    have : j = 1 := by
      have : j ≤ 1 := hj1
      omega
    subst this
    exact ⟨0, 0, makeId 1 0, rfl, hn1⟩
  · intro q0 r0 pid h hne
    obtain ⟨-, -, rfl⟩ := entry_rooted fs q0 r0 pid h
    rw [hn1] at hne
    exact absurd rfl hne

theorem DependencyModel.Inv.rowCount_of_children {fs : FileSetRef} {s : DependencyModel}
    (inv : Inv fs s) (p : QModelIndex) (hnode : nodeId p.internalId ≤ s.m_uniqueIndex)
    (hch : childrenOf s (nodeId p.internalId) ≠ []) :
    rowCount s p = .ok ((childrenOf s (nodeId p.internalId)).length, s) := by
  unfold rowCount
  rw [inv.fileSet]
  simp only []
  rw [inv.childMap_length, toUInt32_of_le inv.bound, assert_of (by simp; omega), ok_bind,
    vecAt_of_getElem? (childrenOf_getElem? s _ (by rw [inv.childMap_length]; omega)), ok_bind,
    if_pos hch]

theorem DependencyModel.Inv.rowCount_root {fs : FileSetRef} {s : DependencyModel}
    (inv : Inv fs s) : rowCount s {} = .ok (1, s) := by
  have h0 : nodeId ({} : QModelIndex).internalId = 0 := rfl
  have := inv.rowCount_of_children {} (by rw [h0]; omega)
    (by rw [h0, inv.root_children]; simp)
  rw [this, h0, inv.root_children]
  rfl

theorem DependencyModel.Inv.rowCount_of_leaf {fs : FileSetRef} {s : DependencyModel}
    (inv : Inv fs s) {q r id : Nat} (hent : (childrenOf s q)[r]? = some id)
    (hleaf : childrenOf s (nodeId id) = []) :
    ((fileIndex id = InvalidFile ∨ fileIndex id ∈ (chain s (nodeId id) id).map fileIndex)
        ∧ rowCount s (createIndex r 0 id) = .ok (0, s))
    ∨ (fileIndex id ≠ InvalidFile ∧ fileIndex id ∉ (chain s (nodeId id) id).map fileIndex
        ∧ ∃ fl, fs.set.file (fileIndex id) = .ok fl
          ∧ rowCount s (createIndex r 0 id) =
              if s.m_uniqueIndex + 1 + fl.neededLibraries.length ≤ QVectorMax then
                .ok (fl.neededLibraries.length,
                  DependencyModel.expand s (nodeId id) id
                    (newIds s.m_uniqueIndex (fl.neededLibraries.map (fileIndexByName s))))
              else .error .badAlloc) := by
  obtain ⟨hq, hnodeN, hvalid, -⟩ := inv.child q r id hent
  have hid : (createIndex (r : Int) 0 id).internalId = id := rfl
  have hstart : rowCount s (createIndex r 0 id) =
      (if fileIndex id = InvalidFile then .ok (0, s)
       else do
        if ← hasCycle s (createIndex r 0 id) then .ok (0, s)
        else do
          let needed := (← fs.set.file (fileIndex id)).neededLibraries
          if needed = [] then .ok (0, s)
          else do
            let s' ← rowCountLoop s (nodeId id) id needed
            return ((← vecAt s'.m_childMap (nodeId id)).length, s')) := by
    unfold rowCount
    rw [inv.fileSet]
    simp only []
    rw [hid, inv.childMap_length, toUInt32_of_le inv.bound, assert_of (by simp; omega), ok_bind,
      vecAt_of_getElem? (childrenOf_getElem? s _ (by rw [inv.childMap_length]; omega)), ok_bind,
      hleaf]
    simp only [ne_eq, not_true_eq_false, if_false]
  rw [hstart, inv.hasCycle_entry hent]
  by_cases hinv : fileIndex id = InvalidFile
  · left
    exact ⟨Or.inl hinv, by rw [if_pos hinv]⟩
  · rw [if_neg hinv, ok_bind]
    by_cases hcyc : fileIndex id ∈ (chain s (nodeId id) id).map fileIndex
    · left
      refine ⟨Or.inr hcyc, ?_⟩
      simp [hcyc]
    · right
      obtain ⟨fl, hfl⟩ := hvalid.file hinv
      refine ⟨hinv, hcyc, fl, hfl, ?_⟩
      have hd : decide (fileIndex id ∈ (chain s (nodeId id) id).map fileIndex) = false := by
        simpa using hcyc
      rw [hd, hfl, ok_bind]
      simp only [Bool.false_eq_true, if_false]
      by_cases hempty : fl.neededLibraries = []
      · rw [if_pos hempty, hempty]
        have hb := inv.bound
        simp only [List.length_nil, Nat.add_zero, hb, if_true, List.map_nil, newIds, expand_nil]
      · rw [if_neg hempty, rowCountLoop_eq _ s _ _ inv.parentMap_length inv.childMap_length
          inv.bound hnodeN (by rw [hleaf]; simp)]
        by_cases hcap : s.m_uniqueIndex + 1 + fl.neededLibraries.length ≤ QVectorMax
        · rw [if_pos hcap, if_pos hcap, ok_bind]
          have hlen : (DependencyModel.expand s (nodeId id) id
              (newIds s.m_uniqueIndex (fl.neededLibraries.map (fileIndexByName s)))).m_childMap.length
              = s.m_uniqueIndex + fl.neededLibraries.length + 1 := by
            simp only [DependencyModel.expand, List.length_append, List.length_set, List.length_replicate,
              inv.childMap_length, newIds_length, List.length_map]
            omega
          rw [vecAt_of_getElem? (childrenOf_getElem? _ _ (by rw [hlen]; omega)), ok_bind,
            childrenOf_expand s _ _ _ (by rw [inv.childMap_length]; omega), if_pos rfl, hleaf,
            List.nil_append, newIds_length, List.length_map]
          rfl
        · rw [if_neg hcap, if_neg hcap, error_bind]

end ElfDissector

namespace ElfDissector

open DependencyModel

theorem DependencyModel.Inv.rowCount_step {fs : FileSetRef} {s s' : DependencyModel}
    (inv : Inv fs s) {p : QModelIndex} {n : Nat} (hp : p = {} ∨ Produced s p)
    (h : rowCount s p = .ok (n, s')) :
    Inv fs s'
    ∧ (∀ x k c : Nat, (childrenOf s x)[k]? = some c → (childrenOf s' x)[k]? = some c)
    ∧ n = (childrenOf s' (nodeId p.internalId)).length
    ∧ s.m_uniqueIndex ≤ s'.m_uniqueIndex := by
  rcases hp with hp | ⟨q, r, hent, hp⟩
  · subst hp
    rw [inv.rowCount_root] at h
    cases h
    refine ⟨inv, fun _ _ _ hc => hc, ?_, le_refl _⟩
    have h0 : nodeId ({} : QModelIndex).internalId = 0 := rfl
    rw [h0, inv.root_children]
    rfl
  · obtain ⟨hq, hnodeN, -, -⟩ := inv.child q r _ hent
    by_cases hch : childrenOf s (nodeId p.internalId) = []
    · rw [hp] at h
      rcases inv.rowCount_of_leaf hent hch with ⟨-, hrc⟩ | ⟨-, hcyc, fl, hfl, hrc⟩
      · rw [hrc] at h
        cases h
        exact ⟨inv, fun _ _ _ hc => hc, by rw [hch]; rfl, le_refl _⟩
      · rw [hrc] at h
        by_cases hcap : s.m_uniqueIndex + 1 + fl.neededLibraries.length ≤ QVectorMax
        · rw [if_pos hcap] at h
          cases h
          have hce := childrenOf_expand s (nodeId p.internalId) p.internalId
            (newIds s.m_uniqueIndex (fl.neededLibraries.map (fileIndexByName s)))
            (by rw [inv.childMap_length]; omega)
          refine ⟨inv.expand hent hch hfl hcyc hcap, ?_, ?_, ?_⟩
          · intro x k c hc
            rw [hce]
            split
            · rename_i hx
              rw [hx, hch] at hc
              simp at hc
            · exact hc
          · rw [hce, if_pos rfl, hch, List.nil_append, newIds_length, List.length_map]
          · simp only [DependencyModel.expand]
            omega
        · rw [if_neg hcap] at h
          cases h
    · rw [inv.rowCount_of_children p hnodeN hch] at h
      cases h
      exact ⟨inv, fun _ _ _ hc => hc, rfl, le_refl _⟩

theorem DependencyModel.index_unfold {fs : FileSetRef} (s : DependencyModel)
    (hfs : s.m_fileSet = some fs) (row column : Int) (p : QModelIndex) :
    index s row column p =
      (hasIndex s row column p >>= fun hs =>
        if !hs.1 then .ok ({}, hs.2)
        else
          assert (decide (nodeId p.internalId < toUInt32 hs.2.m_childMap.length)) >>= fun _ =>
          vecAt hs.2.m_childMap (nodeId p.internalId) >>= fun children =>
          if row ≥ (children.length : Int) then .ok ({}, hs.2)
          else
            assert (decide (row < (children.length : Int))) >>= fun _ =>
            vecAt children row.toNat >>= fun c =>
            .ok (createIndex row column c, hs.2)) := by
  unfold index
  rw [hfs]
  rfl

theorem DependencyModel.hasIndex_unfold (s : DependencyModel) (row column : Int)
    (p : QModelIndex) :
    hasIndex s row column p =
      if row < 0 ∨ column < 0 then .ok (false, s)
      else rowCount s p >>= fun r =>
        .ok (decide (row < (r.1 : Int)) && decide (column < 1), r.2) := by
  unfold hasIndex
  rfl

theorem DependencyModel.index_of_rowCount {fs : FileSetRef} {s s' : DependencyModel}
    (inv : Inv fs s) {p : QModelIndex} {n : Nat} (hp : p = {} ∨ Produced s p)
    (h : rowCount s p = .ok (n, s')) (row column : Int) :
    index s row column p =
      if 0 ≤ row ∧ row < (n : Int) ∧ column = 0 then
        .ok (createIndex row 0 ((childrenOf s' (nodeId p.internalId)).getD row.toNat 0), s')
      else if row < 0 ∨ column < 0 then .ok ({}, s)
      else .ok ({}, s') := by
  obtain ⟨inv', -, hn, -⟩ := inv.rowCount_step hp h
  rw [index_unfold s inv.fileSet, hasIndex_unfold]
  by_cases hneg : row < 0 ∨ column < 0
  · have h1 : ¬ (0 ≤ row ∧ row < (n : Int) ∧ column = 0) := by omega
    rw [if_pos hneg, ok_bind, if_neg h1, if_pos hneg]
    rfl
  · rw [if_neg hneg, h, ok_bind, ok_bind]
    by_cases hin : row < (n : Int) ∧ column = 0
    · have hcol : column < 1 := by omega
      have h1 : 0 ≤ row ∧ row < (n : Int) ∧ column = 0 := by omega
      have hhas : (decide (row < (n : Int)) && decide (column < 1)) = true := by
        simp only [Bool.and_eq_true, decide_eq_true_eq]
        exact ⟨hin.1, hcol⟩
      rw [if_pos h1]
      simp only [hhas, Bool.not_true, Bool.false_eq_true, if_false]
      have hne : childrenOf s' (nodeId p.internalId) ≠ [] := by
        intro e
        rw [e] at hn
        simp only [List.length_nil] at hn
        omega
      have hlt : nodeId p.internalId < s'.m_childMap.length := by
        by_contra hc
        exact hne (childrenOf_of_le s' _ (by omega))
      have hlt' : row.toNat < (childrenOf s' (nodeId p.internalId)).length := by omega
      have hge : ¬ row ≥ ((childrenOf s' (nodeId p.internalId)).length : Int) := by omega
      rw [toUInt32_of_le (by rw [inv'.childMap_length]; exact inv'.bound),
        assert_of (by simpa using hlt), ok_bind,
        vecAt_of_getElem? (childrenOf_getElem? s' _ hlt), ok_bind, if_neg hge,
        assert_of (by simp; omega), ok_bind,
        vecAt_of_getElem? (List.getElem?_eq_getElem hlt'), ok_bind,
        List.getD_eq_getElem?_getD, List.getElem?_eq_getElem hlt', hin.2]
      rfl
    · have h1 : ¬ (0 ≤ row ∧ row < (n : Int) ∧ column = 0) := by omega
      have hhas : (decide (row < (n : Int)) && decide (column < 1)) = false := by
        rw [Bool.and_eq_false_iff]
        simp only [decide_eq_false_iff_not]
        omega
      rw [if_neg h1, if_neg hneg]
      simp only [hhas, Bool.not_false, if_true]

theorem DependencyModel.Inv.index_step {fs : FileSetRef} {s s' : DependencyModel}
    (inv : Inv fs s) {p x : QModelIndex} {row column : Int} (hp : p = {} ∨ Produced s p)
    (h : index s row column p = .ok (x, s')) :
    Inv fs s'
    ∧ (∀ x k c : Nat, (childrenOf s x)[k]? = some c → (childrenOf s' x)[k]? = some c)
    ∧ (x = {} ∨ Produced s' x) := by
  cases hrc : rowCount s p with
  | error e =>
    rw [index_unfold s inv.fileSet, hasIndex_unfold] at h
    by_cases hneg : row < 0 ∨ column < 0
    · rw [if_pos hneg, ok_bind] at h
      simp only [Bool.not_false, if_true] at h
      cases h
      exact ⟨inv, fun _ _ _ hc => hc, Or.inl rfl⟩
    · rw [if_neg hneg, hrc, error_bind, error_bind] at h
      cases h
  | ok res =>
    obtain ⟨n, s1⟩ := res
    obtain ⟨inv', hmono, hn, -⟩ := inv.rowCount_step hp hrc
    rw [index_of_rowCount inv hp hrc] at h
    by_cases hin : 0 ≤ row ∧ row < (n : Int) ∧ column = 0
    · rw [if_pos hin] at h
      cases h
      refine ⟨inv', hmono, Or.inr ⟨nodeId p.internalId, row.toNat, ?_, ?_⟩⟩
      · have hlt' : row.toNat < (childrenOf s' (nodeId p.internalId)).length := by omega
        rw [List.getD_eq_getElem?_getD, List.getElem?_eq_getElem hlt']
        rfl
      · have : ((row.toNat : Nat) : Int) = row := by omega
        rw [this]
        rfl
    · rw [if_neg hin] at h
      by_cases hneg : row < 0 ∨ column < 0
      · rw [if_pos hneg] at h
        cases h
        exact ⟨inv, fun _ _ _ hc => hc, Or.inl rfl⟩
      · rw [if_neg hneg] at h
        cases h
        exact ⟨inv', hmono, Or.inl rfl⟩

theorem DependencyModel.Inv.parent_step {fs : FileSetRef} {s : DependencyModel}
    (inv : Inv fs s) {c x : QModelIndex} (hc : c = {} ∨ Produced s c)
    (h : parent s c = .ok x) : x = {} ∨ Produced s x := by
  rcases hc with hc | ⟨q, r, hent, hc⟩
  · subst hc
    rw [parent_invalid] at h
    cases h
    exact Or.inl rfl
  · rw [hc] at h
    obtain ⟨pid, -, -, hpar⟩ := inv.parent_of_entry hent
    rcases hpar with ⟨-, hpar⟩ | ⟨q', r', hpr, hpar⟩
    · rw [hpar] at h
      cases h
      exact Or.inl rfl
    · rw [hpar] at h
      cases h
      exact Or.inr ⟨q', r', hpr, rfl⟩

theorem DependencyModel.Reach.inv {fs : FileSetRef} {s : DependencyModel}
    {held : List QModelIndex} (h : Reach fs s held) :
    Inv fs s ∧ ∀ x ∈ held, x = {} ∨ Produced s x := by
  induction h with
  | setFileSet hptr hsize hset =>
    rw [setFileSet_nonempty _ _ fs hptr hsize hset]
    exact ⟨Inv.rooted fs hsize, fun x hx => by cases hx⟩
  | setFileSetAgain _ hset ih =>
    obtain ⟨inv, hheld⟩ := ih
    unfold DependencyModel.setFileSet at hset
    rw [inv.fileSet] at hset
    simp only [Option.map_some', if_true] at hset
    cases hset
    exact ⟨inv, hheld⟩
  | rowCount _ hp hrc ih =>
    obtain ⟨inv, hheld⟩ := ih
    have hp' := hp.elim Or.inl (fun h => hheld _ h)
    obtain ⟨inv', hmono, -, -⟩ := inv.rowCount_step hp' hrc
    refine ⟨inv', fun x hx => ?_⟩
    rcases hheld x hx with h0 | ⟨q, r, hent, hx'⟩
    · exact Or.inl h0
    · exact Or.inr ⟨q, r, hmono _ _ _ hent, hx'⟩
  | index _ hp hidx ih =>
    obtain ⟨inv, hheld⟩ := ih
    have hp' := hp.elim Or.inl (fun h => hheld _ h)
    obtain ⟨inv', hmono, hx⟩ := inv.index_step hp' hidx
    refine ⟨inv', fun y hy => ?_⟩
    rcases List.mem_cons.mp hy with hy | hy
    · subst hy; exact hx
    · rcases hheld y hy with h0 | ⟨q, r, hent, hx'⟩
      · exact Or.inl h0
      · exact Or.inr ⟨q, r, hmono _ _ _ hent, hx'⟩
  | parent _ hc hpar ih =>
    obtain ⟨inv, hheld⟩ := ih
    refine ⟨inv, fun y hy => ?_⟩
    rcases List.mem_cons.mp hy with hy | hy
    · subst hy; exact inv.parent_step (hheld _ hc) hpar
    · exact hheld y hy

end ElfDissector

namespace ElfDissector

open DependencyModel

theorem ElfFileSet.file_ok_range {set : ElfFileSet} {f : Int} {fl : ElfFile}
    (h : set.file f = .ok fl) : 0 ≤ f ∧ f < (set.size : Int) ∧ set.m_files[f.toNat]? = some fl := by
  unfold ElfFileSet.file at h
  by_cases hneg : f < 0
  · rw [if_pos hneg] at h
    cases h
  · rw [if_neg hneg] at h
    unfold vecAt at h
    cases hget : set.m_files[f.toNat]? with
    | none => rw [hget] at h; cases h
    | some x =>
      rw [hget] at h
      cases h
      have hlt : f.toNat < set.m_files.length := by
        by_contra hc
        rw [List.getElem?_eq_none (by omega)] at hget
        cases hget
      unfold ElfFileSet.size
      exact ⟨by omega, by omega, rfl⟩

theorem ElfFileSet.file_invalid (set : ElfFileSet) :
    set.file InvalidFile = .error .outOfRange := by
  unfold ElfFileSet.file InvalidFile
  rfl

theorem length_le_of_nodup_of_bounded (l : List Int) (n : Nat) (hnd : l.Nodup)
    (hb : ∀ x ∈ l, 0 ≤ x ∧ x < (n : Int)) : l.length ≤ n := by
  have hnd' : (l.map Int.toNat).Nodup := by
    refine (List.nodup_map_iff_inj_on hnd).mpr ?_
    intro x hx y hy hxy
    have := hb x hx
    have := hb y hy
    omega
  have hsub : l.map Int.toNat ⊆ List.range n := by
    intro x hx
    obtain ⟨y, hy, rfl⟩ := List.mem_map.mp hx
    have := hb y hy
    exact List.mem_range.mpr (by omega)
  have := (List.subperm_of_subset hnd' hsub).length_le
  simpa using this

theorem DependencyModel.Inv.chain_nodup {fs : FileSetRef} {s : DependencyModel}
    (inv : Inv fs s) (n : Nat) :
    ∀ q r id : Nat, (childrenOf s q)[r]? = some id → nodeId id ≤ n →
      ((chain s (nodeId id) id).map fileIndex).Nodup
      ∧ ∀ a ∈ chain s (nodeId id) id,
          childrenOf s (nodeId a) ≠ []
          ∧ 0 ≤ fileIndex a ∧ fileIndex a < (fs.set.size : Int) := by
  induction n with
  | zero =>
    intro q r id hent hle
    obtain ⟨hq, -⟩ := inv.child q r id hent
    omega
  | succ n ih =>
    intro q r id hent hle
    obtain ⟨hq, -, -, pid, hpid, hnode, hprod⟩ := inv.child q r id hent
    rw [inv.chain_of_parent (by omega) hpid]
    by_cases h0 : nodeId pid = 0
    · rw [if_pos h0]
      exact ⟨List.nodup_nil, fun a ha => by cases ha⟩
    · rw [if_neg h0]
      rcases hprod with hz | ⟨q', r', hpr⟩
      · subst hz
        exact absurd rfl h0
      · have hne : childrenOf s (nodeId pid) ≠ [] := by
          intro e
          rw [hnode] at e
          rw [e] at hent
          simp at hent
        obtain ⟨fl, hfl, -, hnot⟩ := inv.expanded q' r' pid hpr hne
        obtain ⟨hnd, hall⟩ := ih q' r' pid hpr (by omega)
        obtain ⟨hf0, hf1, -⟩ := ElfFileSet.file_ok_range hfl
        refine ⟨?_, ?_⟩
        · rw [List.map_cons]
          exact List.nodup_cons.mpr ⟨hnot, hnd⟩
        · intro a ha
          rcases List.mem_cons.mp ha with ha | ha
          · subst ha
            exact ⟨hne, hf0, hf1⟩
          · exact hall a ha

theorem DependencyModel.Inv.rowCount_again {fs : FileSetRef} {s s' : DependencyModel}
    (inv : Inv fs s) {p : QModelIndex} {n : Nat} (hp : p = {} ∨ Produced s p)
    (h : rowCount s p = .ok (n, s')) (hn : 0 < n) : rowCount s' p = .ok (n, s') := by
  obtain ⟨inv', -, hlen, -⟩ := inv.rowCount_step hp h
  have hne : childrenOf s' (nodeId p.internalId) ≠ [] := by
    intro e
    rw [e] at hlen
    simp only [List.length_nil] at hlen
    omega
  have hlt : nodeId p.internalId ≤ s'.m_uniqueIndex := by
    by_contra hc
    exact hne (childrenOf_of_le s' _ (by rw [inv'.childMap_length]; omega))
  rw [inv'.rowCount_of_children p hlt hne, hlen]

theorem DependencyModel.Inv.rowCount_total {fs : FileSetRef} {s : DependencyModel}
    (inv : Inv fs s) {p : QModelIndex} (hp : p = {} ∨ Produced s p) :
    (rowCount s p = .error .badAlloc
      ∧ ∃ fl, fs.set.file (fileIndex p.internalId) = .ok fl
          ∧ QVectorMax < s.m_parentMap.length + fl.neededLibraries.length)
    ∨ ∃ n s', rowCount s p = .ok (n, s') := by
  rcases hp with hp | ⟨q, r, hent, hp⟩
  · subst hp
    exact Or.inr ⟨1, s, inv.rowCount_root⟩
  · obtain ⟨hq, hnodeN, -, -⟩ := inv.child q r _ hent
    by_cases hch : childrenOf s (nodeId p.internalId) = []
    · rw [hp]
      rcases inv.rowCount_of_leaf hent hch with ⟨-, hrc⟩ | ⟨-, -, fl, hfl, hrc⟩
      · exact Or.inr ⟨0, s, hrc⟩
      · rw [hrc]
        by_cases hcap : s.m_uniqueIndex + 1 + fl.neededLibraries.length ≤ QVectorMax
        · rw [if_pos hcap]
          exact Or.inr ⟨_, _, rfl⟩
        · rw [if_neg hcap]
          refine Or.inl ⟨rfl, fl, hfl, ?_⟩
          rw [inv.parentMap_length]
          omega
    · exact Or.inr ⟨_, s, inv.rowCount_of_children p hnodeN hch⟩

theorem DependencyModel.Inv.parent_of_child {fs : FileSetRef} {s : DependencyModel}
    (inv : Inv fs s) {p : QModelIndex} (hp : p = {} ∨ Produced s p) {k c : Nat}
    (hc : (childrenOf s (nodeId p.internalId))[k]? = some c) :
    s.m_parentMap[nodeId c]? = some p.internalId ∧ parent s (createIndex k 0 c) = .ok p := by
  obtain ⟨pid, hpid, hnode, hpar⟩ := inv.parent_of_entry hc
  rcases hp with hp | ⟨q, r, hent, hp⟩
  · subst hp
    have h0 : nodeId ({} : QModelIndex).internalId = 0 := rfl
    rw [h0] at hnode
    rcases hpar with ⟨hz, hpar⟩ | ⟨q', r', hpr, hpar⟩
    · subst hz
      exact ⟨hpid, hpar⟩
    · obtain ⟨hq', -⟩ := inv.child q' r' pid hpr
      omega
  · rcases hpar with ⟨hz, hpar⟩ | ⟨q', r', hpr, hpar⟩
    · subst hz
      obtain ⟨hq, -⟩ := inv.child q r _ hent
      have : nodeId 0 = 0 := rfl
      omega
    · obtain ⟨hqq, hrr, hid⟩ := inv.entry_unique hpr hent hnode
      subst hqq hrr
      rw [hid] at hpid hpar
      rw [hpar, ← hp]
      exact ⟨hpid, rfl⟩

end ElfDissector

/-! ### The dependency tree -/

namespace ElfDissector

open DependencyModel

theorem Examples.reach_rooted :
    Reach Examples.cyclicSet (rooted Examples.cyclicSet) [] :=
  @Reach.setFileSet Examples.cyclicSet Examples.freshModel (rooted Examples.cyclicSet)
    (by decide) (by decide) rfl

theorem Examples.reach_top :
    Reach Examples.cyclicSet (rooted Examples.cyclicSet) [Examples.topIndex] :=
  @Reach.index Examples.cyclicSet (rooted Examples.cyclicSet) (rooted Examples.cyclicSet) []
    {} Examples.topIndex 0 0 Examples.reach_rooted (Or.inl rfl) rfl

theorem Examples.reach_grownOnce :
    Reach Examples.cyclicSet Examples.grownOnce [Examples.libxIndex, Examples.topIndex] :=
  @Reach.index Examples.cyclicSet (rooted Examples.cyclicSet) Examples.grownOnce
    [Examples.topIndex] Examples.topIndex Examples.libxIndex 0 0 Examples.reach_top
    (Or.inr (List.mem_cons_self _ _)) rfl

theorem Examples.reach_grownTwice :
    Reach Examples.cyclicSet Examples.grownTwice
      [Examples.libyIndex, Examples.libxIndex, Examples.topIndex] :=
  @Reach.index Examples.cyclicSet Examples.grownOnce Examples.grownTwice
    [Examples.libxIndex, Examples.topIndex] Examples.libxIndex Examples.libyIndex 0 0
    Examples.reach_grownOnce (Or.inr (List.mem_cons_self _ _)) rfl

theorem Examples.reach_grownThrice :
    Reach Examples.cyclicSet Examples.grownThrice
      [Examples.libxAgainIndex, Examples.libyIndex, Examples.libxIndex, Examples.topIndex] :=
  @Reach.index Examples.cyclicSet Examples.grownTwice Examples.grownThrice
    [Examples.libyIndex, Examples.libxIndex, Examples.topIndex] Examples.libyIndex
    Examples.libxAgainIndex 0 0 Examples.reach_grownTwice
    (Or.inr (List.mem_cons_self _ _)) rfl

/-- C5: in every state reached after `setFileSet` installed a non-empty file set,
`rowCount` of the root index is 1 and `index(0, 0, root)` is the index with
internal id `makeId(1, 0)`: node id 1, file index 0, the first file of the set. -/
theorem DependencyModel.root_is_first_file {fs : FileSetRef} {s : DependencyModel}
    {held : List QModelIndex} (h : Reach fs s held) :
    rowCount s {} = .ok (1, s)
    ∧ index s 0 0 {} = .ok (createIndex 0 0 (makeId 1 0), s)
    ∧ nodeId (makeId 1 0) = 1
    ∧ fileIndex (makeId 1 0) = 0
    ∧ ∃ fl, fs.set.file (fileIndex (makeId 1 0)) = .ok fl ∧ fs.set.m_files.head? = some fl := by
  obtain ⟨inv, -⟩ := h.inv
  have hn1 : nodeId (makeId 1 0) = 1 := by decide
  have hf1 : fileIndex (makeId 1 0) = 0 := by decide
  refine ⟨inv.rowCount_root, ?_, hn1, hf1, ?_⟩
  · rw [index_of_rowCount inv (Or.inl rfl) inv.rowCount_root 0 0, if_pos (by decide)]
    have h0 : nodeId ({} : QModelIndex).internalId = 0 := rfl
    rw [h0, inv.root_children]
    rfl
  · rw [hf1]
    have hne := inv.nonempty
    unfold ElfFileSet.size at hne
    cases hfiles : fs.set.m_files with
    | nil => rw [hfiles] at hne; exact absurd rfl hne
    | cons fl rest =>
      refine ⟨fl, ?_, rfl⟩
      unfold ElfFileSet.file
      rw [hfiles, if_neg (by decide)]
      exact vecAt_of_getElem? (by simp)

/-- C5, witness: the set of an executable and two libraries, right after
`setFileSet`. -/
theorem DependencyModel.root_is_first_file_witness :
    rowCount (rooted Examples.cyclicSet) {} = .ok (1, rooted Examples.cyclicSet)
    ∧ index (rooted Examples.cyclicSet) 0 0 {}
        = .ok (createIndex 0 0 (makeId 1 0), rooted Examples.cyclicSet)
    ∧ nodeId (makeId 1 0) = 1
    ∧ fileIndex (makeId 1 0) = 0
    ∧ ∃ fl, Examples.cyclicSet.set.file (fileIndex (makeId 1 0)) = .ok fl
        ∧ Examples.cyclicSet.set.m_files.head? = some fl :=
  DependencyModel.root_is_first_file Examples.reach_rooted

/-- C10: in every state reached after `setFileSet` installed a non-empty file set,
`m_parentMap` and `m_childMap` hold `m_uniqueIndex + 1` entries (and the counter
has not wrapped), every id stored in a child list or in the parent map has a
node id of at most `m_uniqueIndex`, and every node id from 1 to `m_uniqueIndex`
is found at exactly one place of the child lists. -/
theorem DependencyModel.node_bookkeeping {fs : FileSetRef} {s : DependencyModel}
    {held : List QModelIndex} (h : Reach fs s held) :
    s.m_parentMap.length = s.m_uniqueIndex + 1
    ∧ s.m_childMap.length = s.m_uniqueIndex + 1
    ∧ s.m_uniqueIndex + 1 < 2 ^ 32
    ∧ (∀ children ∈ s.m_childMap, ∀ id ∈ children, nodeId id ≤ s.m_uniqueIndex)
    ∧ (∀ pid ∈ s.m_parentMap, nodeId pid ≤ s.m_uniqueIndex)
    ∧ ∀ j, 1 ≤ j → j ≤ s.m_uniqueIndex →
        ∃! place : Nat × Nat, ∃ id,
          (s.m_childMap[place.1]?.bind (fun children => children[place.2]?)) = some id
          ∧ nodeId id = j := by
  obtain ⟨inv, -⟩ := h.inv
  have hentry : ∀ q r id : Nat,
      (s.m_childMap[q]?.bind (fun children => children[r]?)) = some id →
      (childrenOf s q)[r]? = some id := by
    intro q r id hq
    cases hc : s.m_childMap[q]? with
    | none => rw [hc] at hq; cases hq
    | some children =>
      rw [hc] at hq
      have hlt : q < s.m_childMap.length := by
        by_contra hcon
        rw [List.getElem?_eq_none (by omega)] at hc
        cases hc
      rw [childrenOf_getElem? s q hlt] at hc
      cases hc
      exact hq
  have hentry' : ∀ q r id : Nat, (childrenOf s q)[r]? = some id →
      (s.m_childMap[q]?.bind (fun children => children[r]?)) = some id := by
    intro q r id hq
    have hlt : q < s.m_childMap.length := by
      by_contra hcon
      rw [childrenOf_of_le s q (by omega)] at hq
      simp at hq
    rw [childrenOf_getElem? s q hlt]
    exact hq
  refine ⟨inv.parentMap_length, inv.childMap_length, ?_, ?_, ?_, ?_⟩
  · have := inv.bound
    unfold QVectorMax at this
    omega
  · intro children hch id hid
    obtain ⟨q, hq⟩ := List.mem_iff_getElem?.mp hch
    obtain ⟨r, hr⟩ := List.mem_iff_getElem?.mp hid
    have := hentry q r id (by rw [hq]; exact hr)
    exact (inv.child q r id this).2.1
  · intro pid hpid
    obtain ⟨j, hj⟩ := List.mem_iff_getElem?.mp hpid
    by_cases h0 : j = 0
    · subst h0
      rw [inv.root_parent] at hj
      cases hj
      exact Nat.zero_le _
    · have hlt := inv.parentMap_lt (by omega) hj
      have hjl : j < s.m_parentMap.length := by
        by_contra hcon
        rw [List.getElem?_eq_none (by omega)] at hj
        cases hj
      rw [inv.parentMap_length] at hjl
      omega
  · intro j hj hjN
    obtain ⟨q, r, id, hent, hid⟩ := inv.covered j hj hjN
    refine ⟨(q, r), ⟨id, hentry' q r id hent, hid⟩, ?_⟩
    rintro ⟨q', r'⟩ ⟨id', hent', hid'⟩
    obtain ⟨hq, hr, -⟩ := inv.entry_unique (hentry q' r' id' hent') hent (by rw [hid, hid'])
    rw [hq, hr]

/-- C10, witness: the maps of the example set grown down to the cycle. -/
theorem DependencyModel.node_bookkeeping_witness :
    Examples.grownThrice.m_parentMap.length = Examples.grownThrice.m_uniqueIndex + 1
    ∧ Examples.grownThrice.m_childMap.length = Examples.grownThrice.m_uniqueIndex + 1
    ∧ Examples.grownThrice.m_uniqueIndex + 1 < 2 ^ 32
    ∧ (∀ children ∈ Examples.grownThrice.m_childMap, ∀ id ∈ children,
        nodeId id ≤ Examples.grownThrice.m_uniqueIndex)
    ∧ (∀ pid ∈ Examples.grownThrice.m_parentMap,
        nodeId pid ≤ Examples.grownThrice.m_uniqueIndex)
    ∧ ∀ j, 1 ≤ j → j ≤ Examples.grownThrice.m_uniqueIndex →
        ∃! place : Nat × Nat, ∃ id,
          (Examples.grownThrice.m_childMap[place.1]?.bind
            (fun children => children[place.2]?)) = some id
          ∧ nodeId id = j :=
  DependencyModel.node_bookkeeping Examples.reach_grownThrice

/-- C4: in every state reached after `setFileSet` installed a non-empty file set,
for the root index or an index the model returned, `rowCount` returns (unless
the new children do not fit into the vectors) and for every row below its
result `index` returns a valid index of that row whose `parent` is the index the
children were asked of: no assertion of `parent` fails and `indexOf` finds the
row. -/
theorem DependencyModel.parent_inverts_index {fs : FileSetRef} {s : DependencyModel}
    {held : List QModelIndex} {p : QModelIndex} (h : Reach fs s held)
    (hp : p = {} ∨ p ∈ held) :
    (rowCount s p = .error .badAlloc
      ∧ ∃ fl, fs.set.file (fileIndex p.internalId) = .ok fl
          ∧ QVectorMax < s.m_parentMap.length + fl.neededLibraries.length)
    ∨ ∃ n s', rowCount s p = .ok (n, s')
        ∧ ∀ r : Int, 0 ≤ r → r < (n : Int) →
            ∃ c, index s r 0 p = .ok (c, s')
              ∧ index s' r 0 p = .ok (c, s')
              ∧ c.isValid = true ∧ c.row = r ∧ c.column = 0
              ∧ parent s' c = .ok p := by
  obtain ⟨inv, hheld⟩ := h.inv
  have hp' : p = {} ∨ Produced s p := hp.elim Or.inl (fun h => hheld _ h)
  rcases inv.rowCount_total hp' with hbad | ⟨n, s', hrc⟩
  · exact Or.inl hbad
  · refine Or.inr ⟨n, s', hrc, ?_⟩
    intro r hr0 hrn
    obtain ⟨inv', hmono, hlen, -⟩ := inv.rowCount_step hp' hrc
    have hp'' : p = {} ∨ Produced s' p := by
      rcases hp' with h0 | ⟨q, k, hent, hx⟩
      · exact Or.inl h0
      · exact Or.inr ⟨q, k, hmono _ _ _ hent, hx⟩
    have hrc' := inv.rowCount_again hp' hrc (by omega)
    have hlt : r.toNat < (childrenOf s' (nodeId p.internalId)).length := by omega
    have hget : (childrenOf s' (nodeId p.internalId))[r.toNat]?
        = some ((childrenOf s' (nodeId p.internalId)).getD r.toNat 0) := by
      rw [List.getD_eq_getElem?_getD, List.getElem?_eq_getElem hlt]
      rfl
    have hcast : ((r.toNat : Nat) : Int) = r := by omega
    refine ⟨createIndex r 0 ((childrenOf s' (nodeId p.internalId)).getD r.toNat 0), ?_, ?_, ?_,
      rfl, rfl, ?_⟩
    · rw [index_of_rowCount inv hp' hrc r 0, if_pos ⟨hr0, hrn, rfl⟩]
    · rw [index_of_rowCount inv' hp'' hrc' r 0, if_pos ⟨hr0, hrn, rfl⟩]
    · rw [← hcast]
      exact createIndex_isValid _ _
    · have := (inv'.parent_of_child hp'' hget).2
      rw [hcast] at this
      exact this

/-- C4, witness: the children of the top-level node of the example set. -/
theorem DependencyModel.parent_inverts_index_witness :
    (rowCount Examples.grownOnce Examples.topIndex = .error .badAlloc
      ∧ ∃ fl, Examples.cyclicSet.set.file (fileIndex Examples.topIndex.internalId) = .ok fl
          ∧ QVectorMax < Examples.grownOnce.m_parentMap.length + fl.neededLibraries.length)
    ∨ ∃ n s', rowCount Examples.grownOnce Examples.topIndex = .ok (n, s')
        ∧ ∀ r : Int, 0 ≤ r → r < (n : Int) →
            ∃ c, index Examples.grownOnce r 0 Examples.topIndex = .ok (c, s')
              ∧ index s' r 0 Examples.topIndex = .ok (c, s')
              ∧ c.isValid = true ∧ c.row = r ∧ c.column = 0
              ∧ parent s' c = .ok Examples.topIndex :=
  DependencyModel.parent_inverts_index Examples.reach_grownOnce
    (Or.inr (List.mem_cons_of_mem _ (List.mem_cons_self _ _)))

theorem Examples.parent_of_libghost :
    rowCount Examples.grownOnce Examples.topIndex = .ok (2, Examples.grownOnce)
    ∧ index Examples.grownOnce 1 0 Examples.topIndex
        = .ok (Examples.libghostIndex, Examples.grownOnce)
    ∧ parent Examples.grownOnce Examples.libghostIndex = .ok Examples.topIndex :=
  ⟨rfl, rfl, rfl⟩

end ElfDissector

namespace ElfDissector

open DependencyModel

theorem DependencyModel.Inv.fileIndexByName_absent {fs : FileSetRef} {s : DependencyModel}
    (inv : Inv fs s) (n : String) (h : ∀ fl ∈ fs.set.m_files, fl.soName ≠ n) :
    fileIndexByName s n = InvalidFile := by
  unfold fileIndexByName
  rw [inv.fileIndex_eq, buildFileIndex_absent _ _ _ _ (Or.inr h)]
  rfl

theorem DependencyModel.Inv.dataDisplayRole_unresolved {fs : FileSetRef} {s : DependencyModel}
    (inv : Inv fs s) {p : QModelIndex} {k cid : Nat} {fl : ElfFile} {need : String}
    (hpar : parent s (createIndex k 0 cid) = .ok p)
    (hfl : fs.set.file (fileIndex p.internalId) = .ok fl)
    (hneed : fl.neededLibraries[k]? = some need)
    (hinv : fileIndex cid = InvalidFile) :
    dataDisplayRole s (createIndex k 0 cid) = .ok (some need) := by
  unfold dataDisplayRole
  rw [inv.fileSet]
  simp only [createIndex_isValid, Bool.not_true, Bool.false_eq_true, if_false]
  have hid : (createIndex (k : Int) 0 cid).internalId = cid := rfl
  have hrow : (createIndex (k : Int) 0 cid).row = (k : Int) := rfl
  rw [hid, hrow, hinv]
  simp only [ne_eq, not_true_eq_false, if_false]
  rw [hpar, ok_bind, hfl, ok_bind, if_neg (by omega)]
  simp only [Int.toNat_ofNat]
  rw [vecAt_of_getElem? hneed, ok_bind]
  rfl

theorem DependencyModel.Inv.children_spec {fs : FileSetRef} {s : DependencyModel}
    (inv : Inv fs s) {p : QModelIndex} (hp : Produced s p) {fl : ElfFile}
    (hfl : fs.set.file (fileIndex p.internalId) = .ok fl)
    (hmap : (childrenOf s (nodeId p.internalId)).map fileIndex
      = fl.neededLibraries.map (fileIndexByName s))
    (k : Nat) (need : String) (hneed : fl.neededLibraries[k]? = some need) :
    ∃ c, index s k 0 p = .ok (c, s)
      ∧ (childrenOf s (nodeId p.internalId))[k]? = some c.internalId
      ∧ c.row = k
      ∧ fileIndex c.internalId = fileIndexByName s need
      ∧ s.m_parentMap[nodeId c.internalId]? = some p.internalId
      ∧ parent s c = .ok p
      ∧ (fileIndex c.internalId = InvalidFile → dataDisplayRole s c = .ok (some need)) := by
  have hk : k < fl.neededLibraries.length := by
    by_contra hc
    rw [List.getElem?_eq_none (by omega)] at hneed
    cases hneed
  have hlen : (childrenOf s (nodeId p.internalId)).length = fl.neededLibraries.length := by
    have := congrArg List.length hmap
    simpa using this
  have hk' : k < (childrenOf s (nodeId p.internalId)).length := by omega
  have hget : (childrenOf s (nodeId p.internalId))[k]?
      = some ((childrenOf s (nodeId p.internalId))[k]) := List.getElem?_eq_getElem hk'
  have hfile : fileIndex ((childrenOf s (nodeId p.internalId))[k]) = fileIndexByName s need := by
    have h1 := congrArg (fun l => l[k]?) hmap
    simp only [List.getElem?_map, hget, hneed, Option.map_some', Option.some.injEq] at h1
    exact h1
  have hne : childrenOf s (nodeId p.internalId) ≠ [] := by
    intro e
    rw [e] at hk'
    simp at hk'
  have hnode : nodeId p.internalId ≤ s.m_uniqueIndex := inv.entry_node_le hget
  have hrc := inv.rowCount_of_children p hnode hne
  obtain ⟨hpm, hpar⟩ := inv.parent_of_child (Or.inr hp) hget
  refine ⟨createIndex k 0 ((childrenOf s (nodeId p.internalId))[k]), ?_, hget, rfl, hfile, hpm,
    hpar, fun hinv => inv.dataDisplayRole_unresolved hpar hfl hneed hinv⟩
  rw [index_of_rowCount inv (Or.inr hp) hrc k 0, if_pos ⟨by omega, by omega, rfl⟩,
    List.getD_eq_getElem?_getD]
  simp only [Int.toNat_ofNat, hget, Option.getD_some]

theorem DependencyModel.Inv.children_of_node {fs : FileSetRef} {s : DependencyModel}
    (inv : Inv fs s) {p : QModelIndex} (hprod : Produced s p)
    (hfile : fileIndex p.internalId ≠ InvalidFile) (hcyc : hasCycle s p = .ok false) :
    ∃ fl, fs.set.file (fileIndex p.internalId) = .ok fl
      ∧ ((rowCount s p = .error .badAlloc
            ∧ QVectorMax < s.m_parentMap.length + fl.neededLibraries.length)
        ∨ ∃ s', rowCount s p = .ok (fl.neededLibraries.length, s') ∧ Inv fs s'
            ∧ Produced s' p
            ∧ (childrenOf s' (nodeId p.internalId)).map fileIndex
                = fl.neededLibraries.map (fileIndexByName s')) := by
  obtain ⟨q, r, hent, hpeq⟩ := hprod
  obtain ⟨-, hnodeN, hvf, -⟩ := inv.child q r _ hent
  obtain ⟨fl, hfl⟩ := hvf.file hfile
  have hnot : fileIndex p.internalId ∉ (chain s (nodeId p.internalId) p.internalId).map fileIndex := by
    have := inv.hasCycle_entry hent
    rw [← hpeq, hcyc] at this
    have h2 := Except.ok.inj this
    intro hmem
    have : decide (fileIndex p.internalId
        ∈ (chain s (nodeId p.internalId) p.internalId).map fileIndex) = true := by
      simpa using hmem
    rw [this] at h2
    cases h2
  refine ⟨fl, hfl, ?_⟩
  by_cases hch : childrenOf s (nodeId p.internalId) = []
  · rcases inv.rowCount_of_leaf hent hch with ⟨hbad, -⟩ | ⟨-, -, fl', hfl', hrc⟩
    · rcases hbad with hbad | hbad
      · exact absurd hbad hfile
      · exact absurd hbad hnot
    · rw [hfl] at hfl'
      cases hfl'
      rw [← hpeq] at hrc
      rw [hrc]
      by_cases hcap : s.m_uniqueIndex + 1 + fl.neededLibraries.length ≤ QVectorMax
      · rw [if_pos hcap]
        right
        have inv' := inv.expand hent hch hfl hnot hcap
        have hce := childrenOf_expand s (nodeId p.internalId) p.internalId
          (newIds s.m_uniqueIndex (fl.neededLibraries.map (fileIndexByName s)))
          (by rw [inv.childMap_length]; omega)
        refine ⟨_, rfl, inv', ⟨q, r, ?_, hpeq⟩, ?_⟩
        · rw [hce]
          split
          · rename_i hx
            rw [hx, hch] at hent
            simp at hent
          · exact hent
        · rw [hce, if_pos rfl, hch, List.nil_append]
          have hq : QVectorMax = 2147483647 := rfl
          exact newIds_map_fileIndex _ _ (by rw [List.length_map]; omega)
            (by
              intro f hf
              obtain ⟨need, -, rfl⟩ := List.mem_map.mp hf
              exact (inv.fileIndexByName_valid need).bound)
      · rw [if_neg hcap]
        refine Or.inl ⟨rfl, ?_⟩
        rw [inv.parentMap_length]
        omega
  · right
    obtain ⟨fl', hfl', hmap, -⟩ := inv.expanded q r _ hent hch
    rw [hfl] at hfl'
    cases hfl'
    have hlen : (childrenOf s (nodeId p.internalId)).length = fl.neededLibraries.length := by
      have := congrArg List.length hmap
      simpa using this
    refine ⟨s, ?_, inv, ⟨q, r, hent, hpeq⟩, hmap⟩
    rw [inv.rowCount_of_children p hnodeN hch, hlen]

theorem DependencyModel.Inv.unresolved_display {fs : FileSetRef} {s : DependencyModel}
    (inv : Inv fs s) {c : QModelIndex} (hprod : Produced s c)
    (hinv : fileIndex c.internalId = InvalidFile) :
    ∃ p fl need, parent s c = .ok p ∧ p.isValid = true
      ∧ fs.set.file (fileIndex p.internalId) = .ok fl
      ∧ 0 ≤ c.row ∧ fl.neededLibraries[c.row.toNat]? = some need
      ∧ fileIndexByName s need = InvalidFile
      ∧ dataDisplayRole s c = .ok (some need) := by
  obtain ⟨q, r, hent, hceq⟩ := hprod
  obtain ⟨pid, -, hnode, hpar⟩ := inv.parent_of_entry hent
  have hne : childrenOf s q ≠ [] := by
    intro e
    rw [e] at hent
    simp at hent
  rcases hpar with ⟨hz, -⟩ | ⟨q', r', hpr, hpar⟩
  · -- the only child of the root carries file index 0
    exfalso
    subst hz
    have hq0 : q = 0 := hnode.symm
    subst hq0
    rw [inv.root_children] at hent
    cases r with
    | zero =>
      simp only [List.getElem?_cons_zero, Option.some.injEq] at hent
      rw [← hent] at hinv
      revert hinv
      decide
    | succ r => simp at hent
  · rw [← hnode] at hne hent
    obtain ⟨fl, hfl, hmap, -⟩ := inv.expanded q' r' pid hpr hne
    have hlen : (childrenOf s (nodeId pid)).length = fl.neededLibraries.length := by
      have := congrArg List.length hmap
      simpa using this
    have hr : r < fl.neededLibraries.length := by
      by_contra hcon
      rw [List.getElem?_eq_none (by omega)] at hent
      cases hent
    have hneed : fl.neededLibraries[r]? = some (fl.neededLibraries[r]) :=
      List.getElem?_eq_getElem hr
    have hfi : fileIndex c.internalId = fileIndexByName s (fl.neededLibraries[r]) := by
      have h1 := congrArg (fun l => l[r]?) hmap
      simp only [List.getElem?_map, hent, hneed, Option.map_some', Option.some.injEq] at h1
      exact h1
    have hrow : c.row = (r : Int) := by rw [hceq]; rfl
    have hpid : (createIndex (r' : Int) 0 pid).internalId = pid := rfl
    refine ⟨createIndex r' 0 pid, fl, fl.neededLibraries[r], ?_, createIndex_isValid _ _,
      by rw [hpid]; exact hfl, by omega, ?_, by rw [← hfi]; exact hinv, ?_⟩
    · rw [hceq]; exact hpar
    · rw [hrow]
      simp
    · rw [hceq]
      exact inv.dataDisplayRole_unresolved hpar (by rw [hpid]; exact hfl) hneed hinv

/-- C7: in every state reached after `setFileSet` installed a non-empty file set: for a
valid index `p`, returned by the model or that of any node in the maps, whose
file index is not `InvalidFile` and does not repeat along its ancestors,
`rowCount` returns (unless the new children do not fit into the vectors) the
length of the `DT_NEEDED` list of its file; afterwards its child list has that length, and for every `k`
the child `index(k, 0, p)` carries the file index of `needed[k]` (`InvalidFile`
when no file of the set has that `SONAME`) and has `p` as its parent.  And for
every valid index `c` with file index `InvalidFile`, `data` for the display
role finds the row of `c` in range of the needed list of the file of its
parent and returns that entry, a name the `SONAME` index does not hold. -/
theorem DependencyModel.children_mirror_needed {fs : FileSetRef} {s : DependencyModel}
    {held : List QModelIndex} (h : Reach fs s held) :
    (∀ p : QModelIndex, (p ∈ held ∨ Produced s p) → p.isValid = true →
      fileIndex p.internalId ≠ InvalidFile → hasCycle s p = .ok false →
      ∃ fl, fs.set.file (fileIndex p.internalId) = .ok fl
        ∧ ((rowCount s p = .error .badAlloc
              ∧ QVectorMax < s.m_parentMap.length + fl.neededLibraries.length)
          ∨ ∃ s', rowCount s p = .ok (fl.neededLibraries.length, s')
              ∧ (childrenOf s' (nodeId p.internalId)).length = fl.neededLibraries.length
              ∧ ∀ (k : Nat) (need : String), fl.neededLibraries[k]? = some need →
                  ∃ c, index s' k 0 p = .ok (c, s')
                    ∧ (childrenOf s' (nodeId p.internalId))[k]? = some c.internalId
                    ∧ c.row = k
                    ∧ fileIndex c.internalId = fileIndexByName s' need
                    ∧ ((∀ f ∈ fs.set.m_files, f.soName ≠ need) →
                        fileIndex c.internalId = InvalidFile)
                    ∧ s'.m_parentMap[nodeId c.internalId]? = some p.internalId
                    ∧ parent s' c = .ok p
                    ∧ (fileIndex c.internalId = InvalidFile →
                        dataDisplayRole s' c = .ok (some need))))
    ∧ (∀ c : QModelIndex, (c ∈ held ∨ Produced s c) → c.isValid = true →
        fileIndex c.internalId = InvalidFile →
        ∃ p fl need, parent s c = .ok p ∧ p.isValid = true
          ∧ fs.set.file (fileIndex p.internalId) = .ok fl
          ∧ 0 ≤ c.row ∧ fl.neededLibraries[c.row.toNat]? = some need
          ∧ fileIndexByName s need = InvalidFile
          ∧ dataDisplayRole s c = .ok (some need)) := by
  obtain ⟨inv, hheld⟩ := h.inv
  have hproduced : ∀ x : QModelIndex, (x ∈ held ∨ Produced s x) → x.isValid = true →
      Produced s x := by
    intro x hx hvalid
    rcases hx with hx | hx
    · rcases hheld x hx with h0 | h1
      · subst h0
        simp [QModelIndex.isValid] at hvalid
      · exact h1
    · exact hx
  refine ⟨?_, ?_⟩
  · intro p hp hvalid hfile hcyc
    obtain ⟨fl, hfl, key⟩ := inv.children_of_node (hproduced p hp hvalid) hfile hcyc
    refine ⟨fl, hfl, ?_⟩
    rcases key with hbad | ⟨s', hrc, inv', hp', hmap⟩
    · exact Or.inl hbad
    · refine Or.inr ⟨s', hrc, ?_, ?_⟩
      · have := congrArg List.length hmap
        simpa using this
      · intro k need hneed
        obtain ⟨c, h1, h2, h3, h4, h5, h6, h7⟩ := inv'.children_spec hp' hfl hmap k need hneed
        refine ⟨c, h1, h2, h3, h4, ?_, h5, h6, h7⟩
        intro habs
        rw [h4]
        exact inv'.fileIndexByName_absent need habs
  · intro c hc hvalid hinv
    exact inv.unresolved_display (hproduced c hc hvalid) hinv

/-- C8: `hasCycle` returns for the root index, every index the model handed out and
the index of every node in the maps; for a valid one of them whose
file index is `InvalidFile` or occurs at a strict ancestor, `rowCount` returns 0
and leaves the maps as they are; the strict ancestors of an index all have
children and pairwise distinct file indices, which the file index of an index
with children does not repeat, and there are at most `fileSet.size()` of them,
so that no node lies deeper than `fileSet.size() + 1`. -/
theorem DependencyModel.cycles_cut {fs : FileSetRef} {s : DependencyModel}
    {held : List QModelIndex} {p : QModelIndex} (h : Reach fs s held)
    (hp : p = {} ∨ p ∈ held ∨ Produced s p) :
    (∃ b, hasCycle s p = .ok b)
    ∧ (p.isValid = true →
        (fileIndex p.internalId = InvalidFile ∨ hasCycle s p = .ok true) →
        rowCount s p = .ok (0, s))
    ∧ ∃ path, ancestors s p = .ok path
        ∧ (∀ x ∈ path, x.isValid = true ∧ childrenOf s (nodeId x.internalId) ≠ [])
        ∧ (path.map (fun x => fileIndex x.internalId)).Nodup
        ∧ (childrenOf s (nodeId p.internalId) ≠ [] → p.isValid = true →
            fileIndex p.internalId ∉ path.map (fun x => fileIndex x.internalId))
        ∧ path.length + 1 ≤ fs.set.size + 1 := by
  obtain ⟨inv, hheld⟩ := h.inv
  have hp' : p = {} ∨ Produced s p :=
    hp.elim Or.inl (fun h => h.elim (fun h => hheld _ h) Or.inr)
  rcases hp' with h0 | ⟨q, r, hent, hpeq⟩
  · subst h0
    refine ⟨⟨false, hasCycle_invalid s⟩, ?_, [], ?_, ?_, List.nodup_nil, ?_, by simp⟩
    · intro hv
      simp [QModelIndex.isValid] at hv
    · unfold ancestors ancestorsLoop
      rw [parent_invalid, ok_bind]
      rfl
    · intro x hx; cases hx
    · intro _ hv
      simp [QModelIndex.isValid] at hv
  · obtain ⟨-, hnodeN, hvf, -⟩ := inv.child q r _ hent
    have hhc := inv.hasCycle_entry hent
    rw [← hpeq] at hhc
    obtain ⟨hnd, hall⟩ := inv.chain_nodup _ q r _ hent (le_refl _)
    obtain ⟨path, hpath, hmapid, hprod⟩ := inv.ancestorsLoop_entry (s.m_parentMap.length + 1)
      q r _ hent (by rw [inv.parentMap_length]; omega)
    rw [← hpeq] at hpath
    have hfiles : path.map (fun x => fileIndex x.internalId)
        = (chain s (nodeId p.internalId) p.internalId).map fileIndex := by
      rw [← hmapid, List.map_map]
      rfl
    have hexp : childrenOf s (nodeId p.internalId) ≠ [] →
        fileIndex p.internalId ≠ InvalidFile
        ∧ fileIndex p.internalId ∉ (chain s (nodeId p.internalId) p.internalId).map fileIndex := by
      intro hne
      obtain ⟨fl, hfl, -, hnot⟩ := inv.expanded q r _ hent hne
      refine ⟨?_, hnot⟩
      intro e
      rw [e, ElfFileSet.file_invalid] at hfl
      cases hfl
    refine ⟨⟨_, hhc⟩, ?_, path, hpath, ?_, ?_, ?_, ?_⟩
    · intro _ hbad
      have hleaf : childrenOf s (nodeId p.internalId) = [] := by
        by_contra hne
        obtain ⟨h1, h2⟩ := hexp hne
        rcases hbad with hbad | hbad
        · exact h1 hbad
        · rw [hhc] at hbad
          have := Except.ok.inj hbad
          simp only [decide_eq_true_eq] at this
          exact h2 this
      rcases inv.rowCount_of_leaf hent hleaf with ⟨-, hrc⟩ | ⟨hn1, hn2, -⟩
      · rw [hpeq]; exact hrc
      · rcases hbad with hbad | hbad
        · exact absurd hbad hn1
        · rw [hhc] at hbad
          have := Except.ok.inj hbad
          simp only [decide_eq_true_eq] at this
          exact absurd this hn2
    · intro x hx
      obtain ⟨q', r', -, hxeq⟩ := hprod x hx
      refine ⟨by rw [hxeq]; exact createIndex_isValid _ _, ?_⟩
      have : x.internalId ∈ chain s (nodeId p.internalId) p.internalId := by
        rw [← hmapid]
        exact List.mem_map.mpr ⟨x, hx, rfl⟩
      exact (hall _ this).1
    · rw [hfiles]; exact hnd
    · intro hne _
      rw [hfiles]
      exact (hexp hne).2
    · have hlen : path.length
          = ((chain s (nodeId p.internalId) p.internalId).map fileIndex).length := by
        rw [← hfiles, List.length_map]
      have := length_le_of_nodup_of_bounded _ fs.set.size hnd (by
        intro f hf
        obtain ⟨a, ha, rfl⟩ := List.mem_map.mp hf
        exact (hall a ha).2)
      omega

end ElfDissector

namespace ElfDissector

open DependencyModel

/-- C7, witness: in the model of the set of an executable that needs `libx.so` and the
missing `libghost.so`, the top-level node and its unresolved second child. -/
theorem DependencyModel.children_mirror_needed_witness :
    (∃ fl, Examples.cyclicSet.set.file (fileIndex Examples.topIndex.internalId) = .ok fl
        ∧ ((rowCount Examples.grownOnce Examples.topIndex = .error .badAlloc
              ∧ QVectorMax < Examples.grownOnce.m_parentMap.length
                  + fl.neededLibraries.length)
          ∨ ∃ s', rowCount Examples.grownOnce Examples.topIndex
                = .ok (fl.neededLibraries.length, s')
              ∧ (childrenOf s' (nodeId Examples.topIndex.internalId)).length
                  = fl.neededLibraries.length
              ∧ ∀ (k : Nat) (need : String), fl.neededLibraries[k]? = some need →
                  ∃ c, index s' k 0 Examples.topIndex = .ok (c, s')
                    ∧ (childrenOf s' (nodeId Examples.topIndex.internalId))[k]?
                        = some c.internalId
                    ∧ c.row = k
                    ∧ fileIndex c.internalId = fileIndexByName s' need
                    ∧ ((∀ f ∈ Examples.cyclicSet.set.m_files, f.soName ≠ need) →
                        fileIndex c.internalId = InvalidFile)
                    ∧ s'.m_parentMap[nodeId c.internalId]?
                        = some Examples.topIndex.internalId
                    ∧ parent s' c = .ok Examples.topIndex
                    ∧ (fileIndex c.internalId = InvalidFile →
                        dataDisplayRole s' c = .ok (some need))))
    ∧ (∃ p fl need, parent Examples.grownOnce Examples.libghostIndex = .ok p
          ∧ p.isValid = true
          ∧ Examples.cyclicSet.set.file (fileIndex p.internalId) = .ok fl
          ∧ 0 ≤ Examples.libghostIndex.row
          ∧ fl.neededLibraries[Examples.libghostIndex.row.toNat]? = some need
          ∧ fileIndexByName Examples.grownOnce need = InvalidFile
          ∧ dataDisplayRole Examples.grownOnce Examples.libghostIndex = .ok (some need)) :=
  have h := DependencyModel.children_mirror_needed Examples.reach_grownOnce
  ⟨h.1 Examples.topIndex (Or.inl (List.mem_cons_of_mem _ (List.mem_cons_self _ _))) rfl
      (by decide) rfl,
   h.2 Examples.libghostIndex (Or.inr ⟨1, 1, rfl, rfl⟩) rfl (by decide)⟩

theorem Examples.libghost_displayed :
    dataDisplayRole Examples.grownOnce Examples.libghostIndex
      = .ok (some "libghost.so") := rfl

/-- C8, witness: `libx.so` found again below `liby.so` below `libx.so`; `hasCycle`
is true of it and `rowCount` returns 0 without touching the maps. -/
theorem DependencyModel.cycles_cut_witness :
    hasCycle Examples.grownThrice Examples.libxAgainIndex = .ok true
    ∧ rowCount Examples.grownThrice Examples.libxAgainIndex = .ok (0, Examples.grownThrice)
    ∧ ∃ path, ancestors Examples.grownThrice Examples.libxAgainIndex = .ok path
        ∧ (∀ x ∈ path, x.isValid = true
            ∧ childrenOf Examples.grownThrice (nodeId x.internalId) ≠ [])
        ∧ (path.map (fun x => fileIndex x.internalId)).Nodup
        ∧ (childrenOf Examples.grownThrice (nodeId Examples.libxAgainIndex.internalId) ≠ [] →
            Examples.libxAgainIndex.isValid = true →
            fileIndex Examples.libxAgainIndex.internalId
              ∉ path.map (fun x => fileIndex x.internalId))
        ∧ path.length + 1 ≤ Examples.cyclicSet.set.size + 1 :=
  have h := DependencyModel.cycles_cut Examples.reach_grownThrice
    (Or.inr (Or.inl (List.mem_cons_self _ _)))
  ⟨rfl, h.2.1 rfl (Or.inr rfl), h.2.2⟩

end ElfDissector
